import Mathlib

/-!
# Verification of the chonky workspace reconciliation engine

A shallow embedding of `src/chonky/client.py` (the manifest model, diff,
conflict detection, sync and submit) together with theorems checking the
natural-language specification against it.

Modelling conventions:
* Manifests (`ConfigParser` values) are ordered association lists of sections,
  each section an ordered association list of string keys and values
  (`OrderedDict` semantics: case-sensitive keys, insertion order).
* Workspace file contents are abstracted by their SHA-1 digest: a workspace
  file is a pair of its digest (`WFile.hash`, the value `HashFile` would
  return) and its stat mtime (`WFile.mtime`, a natural number timestamp).
* Filesystem and remote effects of `Client.sync` / `Client.submit` are
  explicit state passing over `St`, which also records an event trace of the
  write-level filesystem operations the code performs (in-place file writes,
  copies, renames, unlinks, remote pulls and pushes).
* Remote transfers (`pull` / `push`) are modelled as succeeding; `RemoteError`
  paths are outside every claim considered here.
-/

/-- An ordered dictionary with string keys (Python `dict` / `OrderedDict`):
an association list in insertion order, keys unique by construction of the
operations below. -/
abbrev Dict (α : Type) := List (String × α)

/-- Dictionary lookup `d[k]` (first occurrence). -/
def dictGet (l : Dict α) (k : String) : Option α :=
  (l.find? (fun e => e.1 == k)).map Prod.snd

/-- Dictionary membership test `k in d`. -/
def dictHas (l : Dict α) (k : String) : Bool := l.any (fun e => e.1 == k)

/-- Dictionary update `d[k] = v`: overwrite in place when the key exists
(keeping its position), else append. -/
def dictSet (l : Dict α) (k : String) (v : α) : Dict α :=
  if dictHas l k then l.map (fun e => if e.1 == k then (k, v) else e)
  else l ++ [(k, v)]

/-- Dictionary deletion `del d[k]`. -/
def dictDel (l : Dict α) (k : String) : Dict α :=
  l.filter (fun e => ¬ e.1 == k)

/-- Key list of a dictionary, in order. -/
def dictKeys (l : Dict α) : List String := l.map Prod.fst

/-- One manifest section: an ordered dictionary (Python `OrderedDict`)
of case-sensitive keys and values. -/
abbrev Sect := Dict String

/-- A parsed manifest (`ConfigParser` with case folding disabled): an ordered
dictionary of named sections. -/
structure Config where
  sections : Dict Sect
deriving DecidableEq, Repr

/-- Key list of a section, in order. -/
def keysOf (s : Sect) : List String := dictKeys s

/-- Dictionary lookup in a section (`section[key]`). -/
def lookupSec (s : Sect) (k : String) : Option String := dictGet s k

/-- Dictionary membership test (`key in section`). -/
def hasKey (s : Sect) (k : String) : Bool := dictHas s k

/-- Dictionary update `section[key] = value`. -/
def setEntry (s : Sect) (k v : String) : Sect := dictSet s k v

/-- Dictionary deletion `del section[key]`. -/
def delEntry (s : Sect) (k : String) : Sect := dictDel s k

/-- `config[name]`: the entries of the named section (empty when absent). -/
def Config.getSection (c : Config) (name : String) : Sect :=
  (dictGet c.sections name).getD []

/-- `config[name] = entries`. -/
def Config.setSection (c : Config) (name : String) (entries : Sect) : Config :=
  ⟨dictSet c.sections name entries⟩

/-- The `HEAD` section of a manifest: POSIX relative path → hash. -/
def Config.head (c : Config) : Sect := c.getSection "HEAD"

/-- Lexicographic comparison of character lists by code point: exactly
Python's string ordering, which `sorted` uses on the `HEAD` keys. -/
def strLe : List Char → List Char → Bool
  | [], _ => true
  | _ :: _, [] => false
  | a :: as, b :: bs => if a < b then true else if a = b then strLe as bs else false

/-- Python's `<=` on strings (code-point lexicographic). -/
def strOrder (a b : String) : Prop := strLe a.data b.data = true

instance : DecidableRel strOrder := fun a b =>
  inferInstanceAs (Decidable (strLe a.data b.data = true))

/-- Order on `HEAD` entries used by `WriteConfig`'s
`sorted(config["HEAD"].items(), key=lambda t: t[0])`: by key. -/
def entryLe (a b : String × String) : Prop := strOrder a.1 b.1

instance : DecidableRel entryLe := fun a b =>
  inferInstanceAs (Decidable (strLe a.1.data b.1.data = true))

/-- Stable ascending sort of `HEAD` entries by key (Python's stable `sorted`,
modelled by insertion sort, which is also stable). -/
def sortEntries (s : Sect) : Sect := s.insertionSort entryLe

/-- The in-memory effect of `WriteConfig` on the config it writes:
`config["HEAD"]` is replaced by its sorted form (source line 76). -/
def writeConfigVal (c : Config) : Config :=
  c.setSection "HEAD" (sortEntries c.head)

/-! ## ConfigDiff (source lines 81-107) -/

/-- `ConfigDiff`: the three key sets computed by `ConfigDiff.__init__`.
Sets are represented as lists of keys (each is a filter of a manifest's key
list, so it is duplicate-free whenever the manifest's keys are). -/
structure ConfigDiff where
  added : List String
  missing : List String
  modified : List String
deriving DecidableEq, Repr

/-- `ConfigDiff(config_a, config_b)`:
`added = HEAD_b.keys() - HEAD_a`, `missing = HEAD_a.keys() - HEAD_b`,
`modified = {k in HEAD_a.keys() & HEAD_b : HEAD_a[k] != HEAD_b[k]}`. -/
def configDiff (a b : Config) : ConfigDiff :=
  { added := (keysOf b.head).filter (fun k => ¬ hasKey a.head k)
  , missing := (keysOf a.head).filter (fun k => ¬ hasKey b.head k)
  , modified := (keysOf a.head).filter
      (fun k => hasKey b.head k && ¬ (lookupSec a.head k == lookupSec b.head k)) }

/-- `ConfigDiff.__bool__`: truthy iff any of the three sets is non-empty. -/
def diffTruthy (d : ConfigDiff) : Bool :=
  !d.added.isEmpty || !d.missing.isEmpty || !d.modified.isEmpty

/-- `ConfigDiff.changed_files`: `added | missing | modified` (the three parts
are pairwise disjoint, so list append represents the set union). -/
def changedFiles (d : ConfigDiff) : List String :=
  d.added ++ d.missing ++ d.modified

/-- `ComputeConflicts`: `sorted(remote_diff.changed_files() &
working_diff.changed_files())`. -/
def computeConflicts (remoteDiff workingDiff : ConfigDiff) : List String :=
  (((changedFiles remoteDiff).filter
      (fun k => (changedFiles workingDiff).contains k)).dedup).insertionSort
    strOrder

/-! ## Paths and the workspace (source lines 20-47, 61-71) -/

/-- A workspace-relative path as its components (Python `Path.parts`). -/
abbrev PathC := List String

/-- A workspace file, its content abstracted by its SHA-1 digest:
`hash` is the value `HashFile` returns for it, `mtime` its stat mtime. -/
structure WFile where
  hash : String
  mtime : Nat
deriving DecidableEq, Repr

/-- Join character lists with a slash separator. -/
def joinC : List (List Char) → List Char
  | [] => []
  | [c] => c
  | c :: rest => c ++ '/' :: joinC rest

/-- `Path.as_posix()`: components joined by a slash. -/
def posixJoin (p : PathC) : String := String.mk (joinC (p.map String.data))

/-- Split a character list at every separator character. -/
def splitOnPred (sep : Char → Bool) : List Char → List (List Char)
  | [] => [[]]
  | c :: cs =>
    if sep c then [] :: splitOnPred sep cs
    else
      match splitOnPred sep cs with
      | l :: ls => (c :: l) :: ls
      | [] => [[c]]

/-- Split a character list at every slash. -/
def splitSlash : List Char → List (List Char) := splitOnPred (fun c => c == '/')

/-- The components of a POSIX path string (`Path(file)` applied to a manifest
key, as `workspace_path.joinpath(file)` does). -/
def splitPosix (s : String) : PathC := (splitSlash s.data).map String.mk

/-! ## fnmatch (Python `fnmatch.fnmatchcase`, used by `PurePath.match`) -/

/-- Split a character list at the first `]`: `(before, after)`. -/
def findClose : List Char → Option (List Char × List Char)
  | [] => none
  | c :: t =>
    if c = ']' then some ([], t)
    else (findClose t).map (fun p => (c :: p.1, p.2))

/-- Parse a bracket character class at the start of `l` (the characters after
the opening `[`): `(negated, class contents, rest of the pattern)`. Mirrors
`fnmatch.translate`: an optional leading `!` negates, a `]` directly after
`[` or `[!` is literal content, and an unterminated class makes `[` a
literal. -/
def splitClass (l : List Char) : Option (Bool × List Char × List Char) :=
  match l with
  | '!' :: ']' :: t => (findClose t).map (fun p => (true, ']' :: p.1, p.2))
  | '!' :: t => (findClose t).map (fun p => (true, p.1, p.2))
  | ']' :: t => (findClose t).map (fun p => (false, ']' :: p.1, p.2))
  | t => (findClose t).map (fun p => (false, p.1, p.2))

/-- One character's test against a class body: `a-b` (with a character after
the dash) is a codepoint range, anything else a literal. -/
def classMatch : List Char → Char → Bool
  | a :: '-' :: b :: rest, c => (a ≤ c && c ≤ b) || classMatch rest c
  | a :: rest, c => (a == c) || classMatch rest c
  | [], _ => false

/-- A glob pattern, tokenized: `*`, `?`, a literal character, or a
character class. -/
inductive GlobTok where
  | star : GlobTok
  | any : GlobTok
  | lit : Char → GlobTok
  | cls : Bool → List Char → GlobTok
deriving DecidableEq, Repr

/-- Tokenize a glob pattern (the pattern cases of `fnmatch.translate`), with
an explicit step budget so the recursion is structural: a class token
consumes several characters at once, so the budget is spent one unit per
token while the text shrinks faster. A budget of the pattern's length always
suffices (each token consumes at least one character), so the out-of-budget
case is unreachable from `tokenize`. -/
def tokenizeF : Nat → List Char → List GlobTok
  | _, [] => []
  | 0, _ => []
  | fuel + 1, l =>
    match l with
    | [] => []
    | '*' :: ps => .star :: tokenizeF fuel ps
    | '?' :: ps => .any :: tokenizeF fuel ps
    | '[' :: ps =>
      match splitClass ps with
      | some (neg, stuff, rest) => .cls neg stuff :: tokenizeF fuel rest
      | none => .lit '[' :: tokenizeF fuel ps
    | c :: ps => .lit c :: tokenizeF fuel ps

/-- Tokenize a glob pattern. -/
def tokenize (l : List Char) : List GlobTok := tokenizeF l.length l

/-- Match a tokenized glob pattern against a character list. A `*` matches
when the remaining tokens match after dropping some prefix of the text. -/
def globToks : List GlobTok → List Char → Bool
  | [], [] => true
  | .star :: ps, cs => (List.range (cs.length + 1)).any (fun n => globToks ps (cs.drop n))
  | .any :: ps, _ :: cs => globToks ps cs
  | .lit p :: ps, c :: cs => (p == c) && globToks ps cs
  | .cls neg stuff :: ps, c :: cs => (classMatch stuff c != neg) && globToks ps cs
  | _, _ => false

/-- `fnmatch.fnmatchcase(s, pat)`: shell-glob match of one path component. -/
def fnmatchStr (s pat : String) : Bool := globToks (tokenize pat.data) s.data

/-! ## Ignore patterns and the workspace walker (source lines 20-39, 144-150) -/

/-- The component list of a relative glob pattern, as `PurePath` parses it:
split at slashes, dropping empty components and `.` (so a trailing slash is
dropped). -/
def patParts (pat : String) : List String :=
  ((splitSlash pat.data).map String.mk).filter (fun s => ¬ (s == "" || s == "."))

/-- Python `PurePath.match` for a relative pattern: the pattern's components
are matched with `fnmatch` against the *last* components of the path
(right-anchored). An empty normalized pattern raises `ValueError` in Python;
modelled as no match (unreachable from a well-formed ignore list). -/
def pathMatch (p : PathC) (pat : String) : Bool :=
  let pp := patParts pat
  ¬ pp.isEmpty && decide (pp.length ≤ p.length) &&
    (List.zip p.reverse pp.reverse).all (fun e => fnmatchStr e.1 e.2)

/-- `MatchesIgnorePattern` (source line 20): `any(file_path.match(pattern)
for pattern in patterns)`. -/
def matchesIgnorePattern (p : PathC) (patterns : List String) : Bool :=
  patterns.any (fun pat => pathMatch p pat)

/-- The proper ancestor directories of a path, as relative paths
(`[a, b, c] ↦ [[a], [a, b]]`). -/
def ancestorDirs : PathC → List PathC
  | [] => []
  | [_] => []
  | a :: rest => [a] :: (ancestorDirs rest).map (fun d => a :: d)

/-- Whether `RecursiveFiles` suppresses this path: `os.walk` prunes a
directory (and with it every descendant) when the directory's relative path
matches an ignore pattern, and skips a file whose own path matches, so a file
is suppressed iff its path or some ancestor directory's path matches. -/
def excludedPath (p : PathC) (patterns : List String) : Bool :=
  matchesIgnorePattern p patterns ||
    (ancestorDirs p).any (fun d => matchesIgnorePattern d patterns)

/-- The files `RecursiveFiles(workspace_root, ignore_patterns)` yields, the
workspace modelled as a flat list of its files in walk order. -/
def trackedFiles (ws : List (PathC × WFile)) (patterns : List String) :
    List (PathC × WFile) :=
  ws.filter (fun e => ¬ excludedPath e.1 patterns)

/-- `BuildConfigForRoot` (source lines 61-71): a config whose `HEAD` maps
each tracked file's POSIX relative path to its hash. -/
def buildConfigForRoot (ws : List (PathC × WFile)) (patterns : List String) :
    Config :=
  ⟨[("HEAD", (trackedFiles ws patterns).map (fun e => (posixJoin e.1, e.2.hash)))]⟩

/-- `str.split()` with no separator: split on whitespace runs, no empties. -/
def pySplitWs (s : String) : List String :=
  ((splitOnPred Char.isWhitespace s.data).map String.mk).filter (fun t => ¬ t == "")

/-- `Client.ignore_patterns` (source lines 144-150): the `ignore` key of the
remote manifest's `config` section, whitespace-split, plus the built-in
`[".HEAD"]`; just the built-in list when the key is absent. -/
def ignorePatterns (remoteCfg : Config) : List String :=
  match lookupSec (remoteCfg.getSection "config") "ignore" with
  | none => [".HEAD"]
  | some t => pySplitWs t ++ [".HEAD"]

/-! ## Client state and operations (source lines 110-255) -/

/-- A write-level filesystem / remote event. Paths are tagged by tier:
workspace files appear as `ws/<posix path>`, cache objects as
`cache/<filename>`; the local manifest file is `ws/.HEAD` and the remote
manifest file is named `CHONKY` (representative name for
`remote_config_path`). -/
inductive FsEv where
  | writeFile : String → FsEv
  | copyFile : String → String → FsEv
  | rename : String → String → FsEv
  | unlink : String → FsEv
  | pull : String → FsEv
  | push : String → FsEv
deriving DecidableEq, Repr

/-- The local manifest file's event path (`workspace/.HEAD`). -/
def localManifestPath : String := "ws/.HEAD"

/-- The remote manifest file's event path (`remote_config_path`). -/
def remoteManifestPath : String := "CHONKY"

/-- The state a `Client` operation acts on: the workspace files, the local
content-addressed cache directory (filename and mtime of each object: after
`shutil.copy2` an object keeps the source file's mtime), the set of object
keys on the remote store, the two on-disk manifest files, and the trace of
write-level events performed so far. The in-memory `local_config` /
`remote_config` equal the on-disk files when an operation starts (the client
loads them on construction). -/
structure St where
  workspace : List (PathC × WFile)
  cache : List (String × Nat)
  remoteStore : List String
  localFile : Config
  remoteFile : Config
  trace : List FsEv
deriving DecidableEq, Repr

/-- The errors (all `ClientError` in the source) the modelled operations can
raise: `ConflictError` with its sorted path list, `PendingRemoteError`, and
`ModifiedDuringRunError` with the offending path. -/
inductive ClientErr where
  | conflict : List String → ClientErr
  | pendingRemote : ClientErr
  | modifiedDuringRun : String → ClientErr
deriving DecidableEq, Repr

/-- Is a cache object with this filename present (`cache_path.is_file()`)? -/
def cacheHas (c : List (String × Nat)) (name : String) : Bool :=
  c.any (fun e => e.1 == name)

/-- The mtime of the named cache object (first entry; names are unique on a
real filesystem and the operations below preserve that). -/
def cacheMtime (c : List (String × Nat)) (name : String) : Option Nat :=
  (c.find? (fun e => e.1 == name)).map Prod.snd

/-- Create or overwrite a file in the cache directory. -/
def cacheWrite (c : List (String × Nat)) (name : String) (mt : Nat) :
    List (String × Nat) :=
  if cacheHas c name then c.map (fun e => if e.1 == name then (name, mt) else e)
  else (name, mt) :: c

/-- `unlink`: remove the named file. -/
def cacheErase (c : List (String × Nat)) (name : String) :
    List (String × Nat) :=
  c.filter (fun e => ¬ e.1 == name)

/-- `Client.cache_pull` (source lines 153-163): download every hash in the
remote manifest's `HEAD` that is not already in the local cache. A pulled
object's mtime is the download time `pullTime`; transfers succeed. -/
def cachePull (pullTime : Nat) (s : St) : St :=
  let needed := (s.remoteFile.head.map Prod.snd).filter
    (fun k => ¬ cacheHas s.cache k)
  { s with
    cache := needed.foldl (fun c k => cacheWrite c k pullTime) s.cache
    trace := s.trace ++ needed.map FsEv.pull }

/-- `Client.cache_push` (source lines 166-170) together with `S3Remote.push`:
upload each key, skipping keys already present on the remote. -/
def cachePush (keys : List String) (s : St) : St :=
  { s with
    remoteStore := s.remoteStore ++ keys.filter (fun k => ¬ s.remoteStore.contains k)
    trace := s.trace ++ keys.map FsEv.push }

/-- Write a workspace file (`shutil.copy2` cache → workspace): overwrite in
place when present, else create. -/
def wsWrite (ws : List (PathC × WFile)) (p : PathC) (f : WFile) :
    List (PathC × WFile) :=
  if ws.any (fun e => e.1 == p) then
    ws.map (fun e => if e.1 == p then (p, f) else e)
  else ws ++ [(p, f)]

/-- Delete a workspace file (`Path.unlink`). -/
def wsDel (ws : List (PathC × WFile)) (p : PathC) : List (PathC × WFile) :=
  ws.filter (fun e => ¬ e.1 == p)

/-- The cache-ingest loop of `Client.submit` (source lines 233-246), iterating
over the tracked workspace files — exactly the items of the working manifest's
`HEAD`, in order, each with its source file at hand. For each file whose hash
is not yet a cache object: copy the file to `cache/temp.<hash>` (`copy2`
preserves the source mtime), fail — deleting the temp — when that mtime
exceeds `startTime`, else rename the temp to `cache/<hash>`. An error carries
the state at raise time. -/
def ingestLoop (startTime : Nat) :
    List (PathC × WFile) → St → Except (String × St) St
  | [], s => .ok s
  | (p, wf) :: rest, s =>
    if cacheHas s.cache wf.hash then ingestLoop startTime rest s
    else
      let tempName := "temp." ++ wf.hash
      let s1 : St := { s with
        cache := cacheWrite s.cache tempName wf.mtime
        trace := s.trace ++ [.copyFile ("ws/" ++ posixJoin p) ("cache/" ++ tempName)] }
      if startTime < wf.mtime then
        .error (posixJoin p, { s1 with
          cache := cacheErase s1.cache tempName
          trace := s1.trace ++ [.unlink ("cache/" ++ tempName)] })
      else
        ingestLoop startTime rest { s1 with
          cache := cacheWrite (cacheErase s1.cache tempName) wf.hash wf.mtime
          trace := s1.trace ++ [.rename ("cache/" ++ tempName) ("cache/" ++ wf.hash)] }

/-- `Client.submit` (source lines 219-255). `startTime` is the `time.time()`
taken before hashing; a workspace file whose `mtime` exceeds it models a file
modified while submit was running. -/
def submit (startTime : Nat) (s : St) : Except (ClientErr × St) St :=
  let patterns := ignorePatterns s.remoteFile
  let workingConfig := buildConfigForRoot s.workspace patterns
  let workingDiff := configDiff s.localFile workingConfig
  if ¬ diffTruthy workingDiff then .ok s
  else if diffTruthy (configDiff s.localFile s.remoteFile) then
    .error (.pendingRemote, s)
  else
    match ingestLoop startTime (trackedFiles s.workspace patterns) s with
    | .error (p, s1) => .error (.modifiedDuringRun p, s1)
    | .ok s1 =>
      let newHead := workingConfig.head
      let touched := workingDiff.added ++ workingDiff.modified
      let pushKeys := (touched.map (fun f => (lookupSec newHead f).getD "")).dedup
      let s2 := cachePush pushKeys s1
      let s3 : St := { s2 with
        localFile := (s.localFile.setSection "HEAD" newHead).setSection
          "HEAD" (sortEntries newHead)
        trace := s2.trace ++ [.writeFile localManifestPath] }
      let s4 : St := { s3 with
        remoteFile := (s.remoteFile.setSection "HEAD" newHead).setSection
          "HEAD" (sortEntries newHead)
        trace := s3.trace ++ [.writeFile remoteManifestPath] }
      .ok s4

/-- One iteration of `Client.sync`'s first loop (source lines 206-212), for a
path in `remote_diff.added | remote_diff.modified`: set the in-memory local
`HEAD` entry to the remote hash and materialize the cache object into the
workspace (`copy2` keeps the cache object's mtime). The in-memory local
`HEAD` rides along as the second component. -/
def syncStep (remoteHead : Sect) (acc : St × Sect) (file : String) : St × Sect :=
  let key := (lookupSec remoteHead file).getD ""
  let mt := (cacheMtime acc.1.cache key).getD 0
  ({ acc.1 with
      workspace := wsWrite acc.1.workspace (splitPosix file) ⟨key, mt⟩
      trace := acc.1.trace ++ [.copyFile ("cache/" ++ key) ("ws/" ++ file)] },
    setEntry acc.2 file key)

/-- One iteration of `Client.sync`'s second loop (source lines 213-215), for a
path in `remote_diff.missing`: delete the in-memory local `HEAD` entry and
unlink the workspace file. -/
def syncDel (acc : St × Sect) (file : String) : St × Sect :=
  ({ acc.1 with
      workspace := wsDel acc.1.workspace (splitPosix file)
      trace := acc.1.trace ++ [.unlink ("ws/" ++ file)] },
    delEntry acc.2 file)

/-- `Client.sync` (source lines 194-217). `pullTime` is the wall time of the
cache pull (the mtime newly downloaded cache objects get). -/
def sync (pullTime : Nat) (s : St) : Except (ClientErr × St) St :=
  let patterns := ignorePatterns s.remoteFile
  let workingConfig := buildConfigForRoot s.workspace patterns
  let remoteDiff := configDiff s.localFile s.remoteFile
  let workingDiff := configDiff s.localFile workingConfig
  if ¬ diffTruthy remoteDiff then .ok s
  else
    let conflicts := computeConflicts remoteDiff workingDiff
    if ¬ conflicts.isEmpty then .error (.conflict conflicts, s)
    else
      let s1 := cachePull pullTime s
      let acc1 := (remoteDiff.added ++ remoteDiff.modified).foldl
        (syncStep s.remoteFile.head) (s1, s.localFile.head)
      let acc2 := remoteDiff.missing.foldl syncDel acc1
      .ok { acc2.1 with
        localFile := (s.localFile.setSection "HEAD" acc2.2).setSection
          "HEAD" (sortEntries acc2.2)
        trace := acc2.1.trace ++ [.writeFile localManifestPath] }

deriving instance DecidableEq for Except

/-- Does the pattern string end in a slash? -/
def endsSlash (pat : String) : Bool := pat.data.getLast? == some '/'

/-- Anchored componentwise glob match: the path's components match the
pattern's components one for one (a shell glob `*`/`?`/class never crosses a
slash). Used only by the spec-side reading `specMatches`. -/
def anchoredMatch (p : PathC) (pp : List String) : Bool :=
  p.length == pp.length && (p.zip pp).all (fun e => fnmatchStr e.1 e.2)

/-- The spec's reading of ignore matching (its §4.3 words, not the code):
"Patterns are shell globs matched against the POSIX relative path; a
trailing `/` indicates directory-only". A pattern without a trailing slash
matches the path itself, componentwise and anchored at both ends; a pattern
with a trailing slash is directory-only — it matches a path through one of
the path's ancestor directories. -/
def specMatches (p : PathC) (pat : String) : Bool :=
  if endsSlash pat then
    (ancestorDirs p).any (fun d => anchoredMatch d (patParts pat))
  else anchoredMatch p (patParts pat)

/-- Well-formed relative path: non-empty, and no component contains a slash
(true of every path a filesystem walk yields). -/
def wfPathC (p : PathC) : Prop := p ≠ [] ∧ ∀ comp ∈ p, '/' ∉ comp.data

instance (p : PathC) : Decidable (wfPathC p) :=
  inferInstanceAs (Decidable (p ≠ [] ∧ ∀ comp ∈ p, '/' ∉ comp.data))

/-! ## The manifest text codec (`LoadConfig` / `WriteConfig`, source lines
50-78). `LoadConfig` delegates to Python `configparser` (case folding
disabled); the reader below models its behavior on manifest files: section
headers, `key = value` options split at the first `=` or `:`, full-line `#`
or `;` comments, blank lines — without continuation lines, inline comments,
interpolation or `DEFAULT`-section special-casing, none of which a manifest
uses. Duplicate keys overwrite. `WriteConfig` sorts `HEAD` and delegates to
`ConfigParser.write`: header line, `key = value` with a spaced `=`, blank
line after each section. -/

/-- Python `str.strip` on the left. -/
def trimL (l : List Char) : List Char := l.dropWhile Char.isWhitespace

/-- Python `str.strip` on the right. -/
def trimR (l : List Char) : List Char := (trimL l.reverse).reverse

/-- Python `str.strip`. -/
def trimC (l : List Char) : List Char := trimR (trimL l)

/-- The lines `ConfigParser.write` emits for one section: `[name]`, one
`key = value` line per entry, then a blank line. -/
def sectionLines (name : String) (entries : Sect) : List (List Char) :=
  ('[' :: name.data ++ [']']) ::
    (entries.map (fun e => e.1.data ++ ' ' :: '=' :: ' ' :: e.2.data) ++ [[]])

/-- All lines `ConfigParser.write` emits. -/
def configLines (c : Config) : List (List Char) :=
  (c.sections.map (fun s => sectionLines s.1 s.2)).join

/-- Terminate every line with a newline. -/
def joinLines (ls : List (List Char)) : List Char :=
  (ls.map (fun l => l ++ ['\n'])).join

/-- The bytes `config.write` produces for a config as it stands in memory. -/
def serializeConfig (c : Config) : List Char := joinLines (configLines c)

/-- The bytes `WriteConfig` puts on disk: sort `HEAD`, then serialize. -/
def writeConfigText (c : Config) : List Char :=
  serializeConfig (writeConfigVal c)

/-- What one line of a manifest file is to `configparser`. -/
inductive IniLine where
  | blank : IniLine
  | comment : IniLine
  | header : String → IniLine
  | option : String → String → IniLine
  | bad : IniLine
deriving DecidableEq, Repr

/-- Split a line at the first `=` or `:` (the non-greedy option regex). -/
def splitFirstDelim : List Char → Option (List Char × List Char)
  | [] => none
  | c :: cs =>
    if c = '=' || c = ':' then some ([], cs)
    else (splitFirstDelim cs).map (fun p => (c :: p.1, p.2))

/-- Classify one line the way `configparser._read` does: strip it; blank and
full-line comments are skipped; a line whose first character is `[` is tried
as a `[header]` (`[^]]+` up to the first `]`, trailing text tolerated),
falling back to an option; an option is split at the first `=` or `:`, the
key right-stripped, the value left-stripped. -/
def classifyLine (l : List Char) : IniLine :=
  match trimC l with
  | [] => .blank
  | c :: rest =>
    if c = '#' || c = ';' then .comment
    else
      let hdr : Option String :=
        if c = '[' then
          match rest.span (fun ch => ch != ']') with
          | (name, _ :: _) => if name.isEmpty then none else some (String.mk name)
          | (_, []) => none
        else none
      match hdr with
      | some n => .header n
      | none =>
        match splitFirstDelim (c :: rest) with
        | some (k, v) => .option (String.mk (trimR k)) (String.mk (trimL v))
        | none => .bad

/-- Split text into lines. -/
def splitLines (l : List Char) : List (List Char) :=
  splitOnPred (fun c => c == '\n') l

/-- Read lines into sections: `cur` is the open section, `acc` the sections
read so far. `none` on a malformed line or an option before any section. -/
def parseLines : List (List Char) → Option String → Dict Sect →
    Option (Dict Sect)
  | [], _, acc => some acc
  | l :: ls, cur, acc =>
    match classifyLine l with
    | .blank => parseLines ls cur acc
    | .comment => parseLines ls cur acc
    | .header n => parseLines ls (some n)
        (if dictHas acc n then acc else acc ++ [(n, [])])
    | .option k v =>
      match cur with
      | none => none
      | some sec => parseLines ls cur
          (acc.map (fun s => if s.1 == sec then (sec, dictSet s.2 k v) else s))
    | .bad => none

/-- `LoadConfig`: parse the file's bytes. -/
def parseConfig (text : List Char) : Option Config :=
  (parseLines (splitLines text) none []).map Config.mk

/-- A key `configparser` reads back exactly as written: non-empty, no
newline and no delimiter, strip-stable, and not opening a header line or a
comment. -/
def WfKey (k : String) : Prop :=
  k ≠ "" ∧ trimC k.data = k.data ∧ '\n' ∉ k.data ∧ '=' ∉ k.data ∧
    ':' ∉ k.data ∧ ∀ c ∈ k.data.take 1, c ≠ '[' ∧ c ≠ '#' ∧ c ≠ ';'

instance (k : String) : Decidable (WfKey k) :=
  inferInstanceAs (Decidable (k ≠ "" ∧ trimC k.data = k.data ∧
    '\n' ∉ k.data ∧ '=' ∉ k.data ∧ ':' ∉ k.data ∧
    ∀ c ∈ k.data.take 1, c ≠ '[' ∧ c ≠ '#' ∧ c ≠ ';'))

/-- A value read back exactly as written: strip-stable, no newline. -/
def WfVal (v : String) : Prop := trimC v.data = v.data ∧ '\n' ∉ v.data

instance (v : String) : Decidable (WfVal v) :=
  inferInstanceAs (Decidable (trimC v.data = v.data ∧ '\n' ∉ v.data))

/-- A section name read back exactly as written (`DEFAULT` is special to
`configparser` and excluded). -/
def WfName (n : String) : Prop :=
  n ≠ "" ∧ '\n' ∉ n.data ∧ ']' ∉ n.data ∧ n ≠ "DEFAULT"

instance (n : String) : Decidable (WfName n) :=
  inferInstanceAs (Decidable (n ≠ "" ∧ '\n' ∉ n.data ∧ ']' ∉ n.data ∧
    n ≠ "DEFAULT"))

/-- A well-formed manifest in memory: distinct section names, well-formed
names, keys unique per section, well-formed keys and values. -/
def WfConfig (c : Config) : Prop :=
  (dictKeys c.sections).Nodup ∧ ∀ s ∈ c.sections,
    WfName s.1 ∧ (dictKeys s.2).Nodup ∧ ∀ e ∈ s.2, WfKey e.1 ∧ WfVal e.2

instance (c : Config) : Decidable (WfConfig c) :=
  inferInstanceAs (Decidable ((dictKeys c.sections).Nodup ∧
    ∀ s ∈ c.sections, WfName s.1 ∧ (dictKeys s.2).Nodup ∧
      ∀ e ∈ s.2, WfKey e.1 ∧ WfVal e.2))

/-- Prefix test on character lists. -/
def isPrefixC : List Char → List Char → Bool
  | [], _ => true
  | _ :: _, [] => false
  | a :: as, b :: bs => a == b && isPrefixC as bs

/-- Does this cache filename name a transient `temp.<hash>` file? -/
def tempPrefixed (n : String) : Bool := isPrefixC "temp.".data n.data

/-! ## Concrete data used by witnesses and counterexamples -/

/-- A small manifest: one tracked file `a` at hash `h1`. -/
def cfgA : Config := ⟨[("config", [("workspace", "ws")]), ("HEAD", [("a", "h1")])]⟩

/-- `cfgA` without a `config` section (same `HEAD`). -/
def cfgA2 : Config := ⟨[("HEAD", [("a", "h1")])]⟩

/-- A manifest whose `HEAD` also lists `b`. -/
def cfgAB : Config :=
  ⟨[("config", [("workspace", "ws")]), ("HEAD", [("a", "h1"), ("b", "h3")])]⟩

/-- A well-formed manifest whose `HEAD` keys are not sorted: `configparser`
accepts the file happily, but `WriteConfig` re-saves it with `a` before `b`. -/
def cfgUnsorted : Config :=
  ⟨[("config", [("workspace", "ws")]), ("HEAD", [("b", "h3"), ("a", "h1")])]⟩

/-- `cfgAB` with a different non-`HEAD` section (same `HEAD`). -/
def cfgAB2 : Config := ⟨[("other", [("x", "y")]), ("HEAD", [("a", "h1"), ("b", "h3")])]⟩

/-- A manifest with `a` at a different hash. -/
def cfgA9 : Config := ⟨[("config", [("workspace", "ws")]), ("HEAD", [("a", "h9")])]⟩

/-- A manifest with an empty `HEAD`. -/
def cfgEmptyHead : Config := ⟨[("config", [("workspace", "ws")]), ("HEAD", [])]⟩

/-- In-sync state: workspace, local and remote manifests all agree on `a`;
the file's mtime (10) exceeds the start time 5 used against it. -/
def stClean : St :=
  { workspace := [(["a"], ⟨"h1", 10⟩)], cache := [], remoteStore := []
  , localFile := cfgA, remoteFile := cfgA, trace := [] }

/-- `stClean` with a fresh remote entry `b` the local manifest lacks. -/
def stNoopRemote : St := { stClean with remoteFile := cfgAB }

/-- `stClean` with `a` rewritten (hash `h2`) before submit began (mtime 3). -/
def stEdit : St := { stClean with workspace := [(["a"], ⟨"h2", 3⟩)] }

/-- The state `submit 5 stEdit` ends in. -/
def stEditDone : St :=
  { workspace := [(["a"], ⟨"h2", 3⟩)], cache := [("h2", 3)], remoteStore := ["h2"]
  , localFile := ⟨[("config", [("workspace", "ws")]), ("HEAD", [("a", "h2")])]⟩
  , remoteFile := ⟨[("config", [("workspace", "ws")]), ("HEAD", [("a", "h2")])]⟩
  , trace := [FsEv.copyFile "ws/a" "cache/temp.h2",
      FsEv.rename "cache/temp.h2" "cache/h2", FsEv.push "h2",
      FsEv.writeFile "ws/.HEAD", FsEv.writeFile "CHONKY"] }

/-- `stClean` with `a` rewritten while submit was running (mtime 20 > 5). -/
def stMidRun : St := { stClean with workspace := [(["a"], ⟨"h2", 20⟩)] }

/-- Remote-ahead state: remote lists `b` that local lacks, and the workspace
has an edit to `a`. -/
def stPending : St := { stEdit with remoteFile := cfgAB }

/-- Conflict state: remote moved `a` to `h9`, the workspace moved it to `h2`. -/
def stConflict : St := { stClean with remoteFile := cfgA9, workspace := [(["a"], ⟨"h2", 3⟩)] }

/-- Sync state: remote adds `b`; the cache already holds `h1`. -/
def stSyncAdd : St := { stClean with remoteFile := cfgAB, cache := [("h1", 1)] }

/-- Sync state: the remote deleted `a`. -/
def stSyncDel : St := { stClean with remoteFile := cfgEmptyHead }

/-! ## Dictionary lemmas -/

theorem dictGet_cons {α : Type} {e : String × α} {t : Dict α} {k : String} :
    dictGet (e :: t) k = if e.1 == k then some e.2 else dictGet t k := by
  by_cases h : e.1 = k
  · simp [dictGet, List.find?, beq_iff_eq.mpr h]
  · simp [dictGet, List.find?, beq_eq_false_iff_ne.mpr h]

theorem dictHas_cons {α : Type} {e : String × α} {t : Dict α} {k : String} :
    dictHas (e :: t) k = ((e.1 == k) || dictHas t k) := by
  simp [dictHas, List.any_cons]

theorem dictDel_cons {α : Type} {e : String × α} {t : Dict α} {k : String} :
    dictDel (e :: t) k = if e.1 == k then dictDel t k else e :: dictDel t k := by
  by_cases h : e.1 = k
  · simp [dictDel, List.filter_cons, beq_iff_eq.mpr h]
    exact h
  · simp [dictDel, List.filter_cons, beq_eq_false_iff_ne.mpr h]
    exact h

theorem dictHas_iff {α : Type} {l : Dict α} {k : String} :
    dictHas l k = true ↔ k ∈ dictKeys l := by
  simp [dictHas, dictKeys, List.any_eq_true, List.mem_map, beq_iff_eq]

theorem dictGet_eq_none_iff {α : Type} {l : Dict α} {k : String} :
    dictGet l k = none ↔ k ∉ dictKeys l := by
  unfold dictGet dictKeys
  rw [Option.map_eq_none', List.find?_eq_none]
  constructor
  · intro h hm
    obtain ⟨e, he, hek⟩ := List.mem_map.mp hm
    have := h e he
    simp [beq_iff_eq, hek] at this
  · intro h e he
    simp only [beq_iff_eq]
    intro hek
    exact h (List.mem_map.mpr ⟨e, he, hek⟩)

theorem dictGet_mem {α : Type} {l : Dict α} {k : String} {v : α}
    (h : dictGet l k = some v) : (k, v) ∈ l := by
  unfold dictGet at h
  cases hf : l.find? (fun e => e.1 == k) with
  | none => rw [hf] at h; simp at h
  | some e =>
    rw [hf] at h
    simp only [Option.map_some'] at h
    have hm := List.mem_of_find?_eq_some hf
    have hp := List.find?_some hf
    simp only [beq_iff_eq] at hp
    cases h
    have he : e = (k, e.2) := by cases e; simp_all
    rw [← he]; exact hm

theorem dictGet_isSome_iff {α : Type} {l : Dict α} {k : String} :
    (dictGet l k).isSome = true ↔ k ∈ dictKeys l := by
  cases h : dictGet l k with
  | none => simp [dictGet_eq_none_iff.mp h]
  | some v =>
    simp only [Option.isSome_some, true_iff]
    exact List.mem_map.mpr ⟨(k, v), dictGet_mem h, rfl⟩

theorem mem_dictGet {α : Type} {l : Dict α} {k : String} {v : α}
    (hnd : (dictKeys l).Nodup) (h : (k, v) ∈ l) : dictGet l k = some v := by
  induction l with
  | nil => simp at h
  | cons e t ih =>
    simp only [dictKeys, List.map_cons, List.nodup_cons] at hnd
    rcases List.mem_cons.mp h with he | ht
    · cases he
      simp [dictGet, List.find?]
    · have hk : k ∈ dictKeys t := List.mem_map.mpr ⟨(k, v), ht, rfl⟩
      have hne : ¬ (e.1 == k) := by
        simp only [beq_iff_eq]
        intro hkk
        apply hnd.1
        rw [hkk]
        simpa [dictKeys] using hk
      rw [dictGet_cons, if_neg (by simpa using hne)]
      exact ih hnd.2 ht

theorem dictKeys_perm {α : Type} {l t : Dict α} (hp : l.Perm t) :
    (dictKeys l).Perm (dictKeys t) := hp.map Prod.fst

theorem dictGet_perm {α : Type} {l t : Dict α} (hp : l.Perm t)
    (hnd : (dictKeys l).Nodup) (k : String) : dictGet l k = dictGet t k := by
  cases h : dictGet l k with
  | none =>
    have hk := dictGet_eq_none_iff.mp h
    have : k ∉ dictKeys t := fun hm => hk ((dictKeys_perm hp).mem_iff.mpr hm)
    exact (dictGet_eq_none_iff.mpr this).symm
  | some v =>
    have hm := dictGet_mem h
    have hnd2 : (dictKeys t).Nodup := ((dictKeys_perm hp).nodup_iff).mp hnd
    exact (mem_dictGet hnd2 (hp.mem_iff.mp hm)).symm

theorem dictGet_mapReplace {α : Type} {l : Dict α} {k k' : String} {v : α} :
    dictGet (l.map (fun e => if e.1 == k then (k, v) else e)) k' =
      if k' = k then (if dictHas l k then some v else none) else dictGet l k' := by
  induction l with
  | nil => simp [dictGet, dictHas]
  | cons e t ih =>
    by_cases hek : e.1 = k <;> by_cases hk' : k' = k <;> by_cases hek' : e.1 = k' <;>
      simp_all [List.map_cons, dictGet_cons, dictHas_cons, beq_iff_eq]

theorem dictGet_dictSet {α : Type} {l : Dict α} {k k' : String} {v : α} :
    dictGet (dictSet l k v) k' = if k' = k then some v else dictGet l k' := by
  unfold dictSet
  by_cases hh : dictHas l k
  · rw [if_pos hh, dictGet_mapReplace, hh]
    split <;> rfl
  · rw [if_neg hh]
    by_cases hk' : k' = k
    · subst hk'
      have hn : dictGet l k' = none :=
        dictGet_eq_none_iff.mpr (fun hm => hh (dictHas_iff.mpr hm))
      unfold dictGet at hn ⊢
      rw [List.find?_append, Option.map_eq_none'.mp hn]
      simp [List.find?]
    · unfold dictGet
      rw [List.find?_append]
      have h2 : List.find? (fun e => e.1 == k') [(k, v)] = none := by
        have hne : ¬ ((k, v).1 == k') := by
          simp only [beq_iff_eq]
          exact fun h => hk' h.symm
        simp [List.find?, hne]
      rw [h2, if_neg hk']
      simp

theorem dictGet_dictDel {α : Type} {l : Dict α} {k k' : String} :
    dictGet (dictDel l k) k' = if k' = k then none else dictGet l k' := by
  induction l with
  | nil => simp only [dictDel, List.filter_nil, dictGet]; split <;> rfl
  | cons e t ih =>
    by_cases hek : e.1 = k <;> by_cases hk' : k' = k <;> by_cases hek' : e.1 = k' <;>
      simp_all [dictDel_cons, dictGet_cons, beq_iff_eq]

/-! ## Section, config and diff lemmas -/

theorem lookupSec_def (s : Sect) (k : String) : lookupSec s k = dictGet s k := rfl

theorem keysOf_def (s : Sect) : keysOf s = dictKeys s := rfl

theorem hasKey_def (s : Sect) (k : String) : hasKey s k = dictHas s k := rfl

theorem lookupSec_setEntry {s : Sect} {k k' v : String} :
    lookupSec (setEntry s k v) k' = if k' = k then some v else lookupSec s k' :=
  dictGet_dictSet

theorem lookupSec_delEntry {s : Sect} {k k' : String} :
    lookupSec (delEntry s k) k' = if k' = k then none else lookupSec s k' :=
  dictGet_dictDel

theorem dictKeys_dictSet_nodup {α : Type} {l : Dict α} {k : String} {v : α}
    (h : (dictKeys l).Nodup) : (dictKeys (dictSet l k v)).Nodup := by
  unfold dictSet
  by_cases hh : dictHas l k
  · rw [if_pos hh]
    have he : dictKeys (l.map (fun e => if e.1 == k then (k, v) else e)) = dictKeys l := by
      unfold dictKeys
      rw [List.map_map]
      apply List.map_congr_left
      intro e _
      simp only [Function.comp_apply]
      split <;> simp_all [beq_iff_eq]
    rwa [he]
  · rw [if_neg hh]
    unfold dictKeys
    rw [List.map_append]
    have hk : k ∉ dictKeys l := fun hm => hh (dictHas_iff.mpr hm)
    simp only [List.map_cons, List.map_nil]
    have hdisj : (l.map Prod.fst).Disjoint [k] := by
      intro x hx hxk
      rw [List.mem_singleton] at hxk
      subst hxk
      exact hk hx
    exact List.Nodup.append h (List.nodup_singleton k) hdisj

theorem dictKeys_dictDel_nodup {α : Type} {l : Dict α} {k : String}
    (h : (dictKeys l).Nodup) : (dictKeys (dictDel l k)).Nodup :=
  ((List.filter_sublist l).map Prod.fst).nodup h

theorem sortEntries_perm (s : Sect) : (sortEntries s).Perm s :=
  List.perm_insertionSort entryLe s

theorem lookupSec_sortEntries {s : Sect} {k : String} (h : (keysOf s).Nodup) :
    lookupSec (sortEntries s) k = lookupSec s k :=
  dictGet_perm (sortEntries_perm s)
    (((dictKeys_perm (sortEntries_perm s)).nodup_iff).mpr h) k

theorem getSection_setSection_self (c : Config) (n : String) (es : Sect) :
    (c.setSection n es).getSection n = es := by
  unfold Config.getSection Config.setSection
  simp [dictGet_dictSet]

theorem getSection_setSection_ne (c : Config) {n n' : String} (es : Sect)
    (h : n' ≠ n) : (c.setSection n es).getSection n' = c.getSection n' := by
  unfold Config.getSection Config.setSection
  simp [dictGet_dictSet, if_neg h]

theorem buildConfigForRoot_head (ws : List (PathC × WFile))
    (patterns : List String) :
    (buildConfigForRoot ws patterns).head =
      (trackedFiles ws patterns).map (fun e => (posixJoin e.1, e.2.hash)) := by
  unfold buildConfigForRoot Config.head Config.getSection
  simp [dictGet, List.find?]

theorem ignorePatterns_congr {c1 c2 : Config}
    (h : c1.getSection "config" = c2.getSection "config") :
    ignorePatterns c1 = ignorePatterns c2 := by
  unfold ignorePatterns
  rw [h]

theorem mem_added {a b : Config} {k : String} :
    k ∈ (configDiff a b).added ↔ k ∈ keysOf b.head ∧ k ∉ keysOf a.head := by
  simp [configDiff, List.mem_filter, hasKey_def, keysOf_def, dictHas_iff]

theorem mem_missing {a b : Config} {k : String} :
    k ∈ (configDiff a b).missing ↔ k ∈ keysOf a.head ∧ k ∉ keysOf b.head := by
  simp [configDiff, List.mem_filter, hasKey_def, keysOf_def, dictHas_iff]

theorem mem_modified {a b : Config} {k : String} :
    k ∈ (configDiff a b).modified ↔
      k ∈ keysOf a.head ∧ k ∈ keysOf b.head ∧
        lookupSec a.head k ≠ lookupSec b.head k := by
  simp [configDiff, List.mem_filter, hasKey_def, keysOf_def, dictHas_iff,
    and_assoc]

theorem diffTruthy_eq_false_iff {a b : Config} :
    diffTruthy (configDiff a b) = false ↔
      ∀ k, lookupSec a.head k = lookupSec b.head k := by
  constructor
  · intro h k
    unfold diffTruthy at h
    simp only [Bool.or_eq_false_iff, Bool.not_eq_false'] at h
    obtain ⟨⟨ha, hm⟩, hmod⟩ := h
    by_cases hka : k ∈ keysOf a.head
    · by_cases hkb : k ∈ keysOf b.head
      · by_contra hne
        have hmem : k ∈ (configDiff a b).modified := mem_modified.mpr ⟨hka, hkb, hne⟩
        rw [List.isEmpty_iff.mp hmod] at hmem
        simp at hmem
      · have hmem : k ∈ (configDiff a b).missing := mem_missing.mpr ⟨hka, hkb⟩
        rw [List.isEmpty_iff.mp hm] at hmem
        simp at hmem
    · by_cases hkb : k ∈ keysOf b.head
      · have hmem : k ∈ (configDiff a b).added := mem_added.mpr ⟨hkb, hka⟩
        rw [List.isEmpty_iff.mp ha] at hmem
        simp at hmem
      · rw [lookupSec_def, dictGet_eq_none_iff.mpr hka,
          lookupSec_def, dictGet_eq_none_iff.mpr hkb]
  · intro h
    unfold diffTruthy
    have ha : (configDiff a b).added = [] := by
      rw [List.eq_nil_iff_forall_not_mem]
      intro k hk
      obtain ⟨hkb, hka⟩ := mem_added.mp hk
      have h1 : lookupSec a.head k = none := dictGet_eq_none_iff.mpr hka
      have h2 : (lookupSec b.head k).isSome = true := dictGet_isSome_iff.mpr hkb
      rw [← h k, h1] at h2
      simp at h2
    have hm : (configDiff a b).missing = [] := by
      rw [List.eq_nil_iff_forall_not_mem]
      intro k hk
      obtain ⟨hka, hkb⟩ := mem_missing.mp hk
      have h1 : lookupSec b.head k = none := dictGet_eq_none_iff.mpr hkb
      have h2 : (lookupSec a.head k).isSome = true := dictGet_isSome_iff.mpr hka
      rw [h k, h1] at h2
      simp at h2
    have hmod : (configDiff a b).modified = [] := by
      rw [List.eq_nil_iff_forall_not_mem]
      intro k hk
      exact (mem_modified.mp hk).2.2 (h k)
    rw [ha, hm, hmod]
    rfl

theorem diffTruthy_of_mem_changed {d : ConfigDiff} {k : String}
    (h : k ∈ changedFiles d) : diffTruthy d = true := by
  unfold changedFiles at h
  unfold diffTruthy
  rcases List.mem_append.mp h with h1 | h2
  · rcases List.mem_append.mp h1 with ha | hm
    · have he : d.added.isEmpty = false := by
        cases he : d.added.isEmpty
        · rfl
        · exact absurd (List.isEmpty_iff.mp he) (List.ne_nil_of_mem ha)
      simp [he]
    · have he : d.missing.isEmpty = false := by
        cases he : d.missing.isEmpty
        · rfl
        · exact absurd (List.isEmpty_iff.mp he) (List.ne_nil_of_mem hm)
      simp [he]
  · have he : d.modified.isEmpty = false := by
      cases he : d.modified.isEmpty
      · rfl
      · exact absurd (List.isEmpty_iff.mp he) (List.ne_nil_of_mem h2)
    simp [he]

theorem mem_computeConflicts {rd wd : ConfigDiff} {k : String} :
    k ∈ computeConflicts rd wd ↔
      k ∈ changedFiles rd ∧ k ∈ changedFiles wd := by
  unfold computeConflicts
  rw [List.mem_insertionSort, List.mem_dedup, List.mem_filter]
  simp

theorem mem_changed_of_added {d : ConfigDiff} {k : String} (h : k ∈ d.added) :
    k ∈ changedFiles d := by
  unfold changedFiles
  exact List.mem_append.mpr (Or.inl (List.mem_append.mpr (Or.inl h)))

theorem mem_changed_of_missing {d : ConfigDiff} {k : String}
    (h : k ∈ d.missing) : k ∈ changedFiles d := by
  unfold changedFiles
  exact List.mem_append.mpr (Or.inl (List.mem_append.mpr (Or.inr h)))

theorem mem_changed_of_modified {d : ConfigDiff} {k : String}
    (h : k ∈ d.modified) : k ∈ changedFiles d := by
  unfold changedFiles
  exact List.mem_append.mpr (Or.inr h)

/-! ## Claims -/

/-- C9: the diff of two manifests depends only on their `HEAD` sections: for
any two pairs of manifests that agree on their `HEAD` sections (whatever
their `config` sections), `ConfigDiff` produces the same added, missing and
modified sets, the same truth value, and the same changed-files set. -/
theorem configDiff_depends_only_on_HEAD (a1 a2 b1 b2 : Config)
    (ha : a1.head = a2.head) (hb : b1.head = b2.head) :
    configDiff a1 b1 = configDiff a2 b2 ∧
    diffTruthy (configDiff a1 b1) = diffTruthy (configDiff a2 b2) ∧
    changedFiles (configDiff a1 b1) = changedFiles (configDiff a2 b2) := by
  have h : configDiff a1 b1 = configDiff a2 b2 := by
    unfold configDiff
    rw [ha, hb]
  exact ⟨h, by rw [h], by rw [h]⟩

/-- Witness for C9 at manifests whose non-`HEAD` sections differ. -/
theorem configDiff_depends_only_on_HEAD_witness :
    configDiff cfgA cfgAB = configDiff cfgA2 cfgAB2 ∧
    diffTruthy (configDiff cfgA cfgAB) = diffTruthy (configDiff cfgA2 cfgAB2) ∧
    changedFiles (configDiff cfgA cfgAB) = changedFiles (configDiff cfgA2 cfgAB2) :=
  configDiff_depends_only_on_HEAD cfgA cfgA2 cfgAB cfgAB2 (by decide) (by decide)

/-- C2: when the working diff (local manifest against the freshly built
working manifest) is empty, submit is a no-op — identical state, no error,
no event — even when the remote manifest differs from the local one; and
when the working diff is non-empty but the local and remote manifests
differ, submit fails with `PendingRemoteError` before any cache ingest,
remote push or manifest write (the error state is the initial state). -/
theorem submit_noop_or_pendingRemote (t : Nat) (s : St) :
    (diffTruthy (configDiff s.localFile
        (buildConfigForRoot s.workspace (ignorePatterns s.remoteFile))) = false →
      submit t s = Except.ok s) ∧
    (diffTruthy (configDiff s.localFile
        (buildConfigForRoot s.workspace (ignorePatterns s.remoteFile))) = true →
      diffTruthy (configDiff s.localFile s.remoteFile) = true →
      submit t s = Except.error (ClientErr.pendingRemote, s)) := by
  constructor
  · intro h
    unfold submit
    simp [h]
  · intro h1 h2
    unfold submit
    simp [h1, h2]

/-- Witness for C2: a clean workspace with a pending remote change is a
no-op; a dirty workspace with a pending remote change raises. -/
theorem submit_noop_or_pendingRemote_witness :
    submit 5 stNoopRemote = Except.ok stNoopRemote ∧
    submit 5 stPending = Except.error (ClientErr.pendingRemote, stPending) :=
  ⟨(submit_noop_or_pendingRemote 5 stNoopRemote).1 (by decide),
   (submit_noop_or_pendingRemote 5 stPending).2 (by decide) (by decide)⟩

/-- C3: when the conflict set — the sorted intersection of the remote diff's
changed paths and the working diff's changed paths — is non-empty, sync
fails with `ConflictError` carrying exactly that list and performs no
mutation at all: the error state is the initial state (no pull, no
workspace write or unlink, no manifest write, no event). -/
theorem sync_conflict_no_mutation (pt : Nat) (s : St) (c : List String)
    (hc : computeConflicts (configDiff s.localFile s.remoteFile)
        (configDiff s.localFile
          (buildConfigForRoot s.workspace (ignorePatterns s.remoteFile))) = c)
    (hne : c ≠ []) :
    sync pt s = Except.error (ClientErr.conflict c, s) := by
  obtain ⟨k, hk⟩ := List.exists_mem_of_ne_nil c hne
  have hkc := hc ▸ hk
  have hrd : diffTruthy (configDiff s.localFile s.remoteFile) = true :=
    diffTruthy_of_mem_changed (mem_computeConflicts.mp hkc).1
  have hie : (computeConflicts (configDiff s.localFile s.remoteFile)
      (configDiff s.localFile
        (buildConfigForRoot s.workspace (ignorePatterns s.remoteFile)))).isEmpty = false := by
    rw [hc]
    cases he : c.isEmpty
    · rfl
    · exact absurd (List.isEmpty_iff.mp he) hne
  unfold sync
  simp [hrd, hie, hc]
  exact hne

/-- Witness for C3 at a state where remote and workspace both moved `a`. -/
theorem sync_conflict_no_mutation_witness :
    sync 7 stConflict = Except.error (ClientErr.conflict ["a"], stConflict) :=
  sync_conflict_no_mutation 7 stConflict ["a"] (by decide) (by decide)

/-- C10: under the precondition that the conflict set is empty, every path in
the remote diff's missing set is also a key of the working manifest (its
workspace file was present and tracked when the workspace was hashed), so
the workspace deletion step of sync never targets a path absent from the
working manifest. -/
theorem sync_missing_subset_working (s : St)
    (h : computeConflicts (configDiff s.localFile s.remoteFile)
        (configDiff s.localFile
          (buildConfigForRoot s.workspace (ignorePatterns s.remoteFile))) = []) :
    ∀ p ∈ (configDiff s.localFile s.remoteFile).missing,
      p ∈ keysOf (buildConfigForRoot s.workspace (ignorePatterns s.remoteFile)).head := by
  intro p hp
  by_contra hnp
  obtain ⟨hla, _⟩ := mem_missing.mp hp
  have hwm : p ∈ (configDiff s.localFile
      (buildConfigForRoot s.workspace (ignorePatterns s.remoteFile))).missing :=
    mem_missing.mpr ⟨hla, hnp⟩
  have hmem : p ∈ computeConflicts (configDiff s.localFile s.remoteFile)
      (configDiff s.localFile
        (buildConfigForRoot s.workspace (ignorePatterns s.remoteFile))) :=
    mem_computeConflicts.mpr
      ⟨mem_changed_of_missing hp, mem_changed_of_missing hwm⟩
  rw [h] at hmem
  simp at hmem

/-- Witness for C10: the remote deleted `a`; with no conflicts, `a` is still
a key of the working manifest. -/
theorem sync_missing_subset_working_witness :
    "a" ∈ keysOf (buildConfigForRoot stSyncDel.workspace
      (ignorePatterns stSyncDel.remoteFile)).head :=
  sync_missing_subset_working stSyncDel (by decide) "a" (by decide)

theorem head_setSection (c : Config) (es : Sect) :
    (c.setSection "HEAD" es).head = es :=
  getSection_setSection_self c "HEAD" es

theorem foldl_syncStep_snd (rh : Sect) (files : List String) (acc : St × Sect) :
    (files.foldl (syncStep rh) acc).2 =
      files.foldl (fun h f => setEntry h f ((lookupSec rh f).getD "")) acc.2 := by
  induction files generalizing acc with
  | nil => rfl
  | cons f rest ih => simp [List.foldl_cons, syncStep, ih]

theorem foldl_syncDel_snd (files : List String) (acc : St × Sect) :
    (files.foldl syncDel acc).2 =
      files.foldl (fun h f => delEntry h f) acc.2 := by
  induction files generalizing acc with
  | nil => rfl
  | cons f rest ih => simp [List.foldl_cons, syncDel, ih]

theorem foldl_syncStep_frame (rh : Sect) (files : List String) (acc : St × Sect) :
    (files.foldl (syncStep rh) acc).1.remoteFile = acc.1.remoteFile ∧
    (files.foldl (syncStep rh) acc).1.cache = acc.1.cache ∧
    (files.foldl (syncStep rh) acc).1.remoteStore = acc.1.remoteStore := by
  induction files generalizing acc with
  | nil => exact ⟨rfl, rfl, rfl⟩
  | cons f rest ih => simp [List.foldl_cons, syncStep, ih]

theorem foldl_syncDel_frame (files : List String) (acc : St × Sect) :
    (files.foldl syncDel acc).1.remoteFile = acc.1.remoteFile ∧
    (files.foldl syncDel acc).1.cache = acc.1.cache ∧
    (files.foldl syncDel acc).1.remoteStore = acc.1.remoteStore := by
  induction files generalizing acc with
  | nil => exact ⟨rfl, rfl, rfl⟩
  | cons f rest ih => simp [List.foldl_cons, syncDel, ih]

theorem lookup_foldl_setEntry (g : String → String) (files : List String)
    (l : Sect) (k : String) :
    lookupSec (files.foldl (fun h f => setEntry h f (g f)) l) k =
      if k ∈ files then some (g k) else lookupSec l k := by
  induction files generalizing l with
  | nil => simp
  | cons f rest ih =>
    rw [List.foldl_cons, ih]
    by_cases hk : k ∈ rest
    · simp [hk, List.mem_cons]
    · by_cases hkf : k = f
      · simp [hk, hkf, lookupSec_setEntry]
      · simp [hk, hkf, lookupSec_setEntry, List.mem_cons]

theorem lookup_foldl_delEntry (files : List String) (l : Sect) (k : String) :
    lookupSec (files.foldl (fun h f => delEntry h f) l) k =
      if k ∈ files then none else lookupSec l k := by
  induction files generalizing l with
  | nil => simp
  | cons f rest ih =>
    rw [List.foldl_cons, ih]
    by_cases hk : k ∈ rest
    · simp [hk, List.mem_cons]
    · by_cases hkf : k = f
      · simp [hk, hkf, lookupSec_delEntry]
      · simp [hk, hkf, lookupSec_delEntry, List.mem_cons]

theorem nodup_foldl_setEntry (g : String → String) (files : List String)
    (l : Sect) (h : (keysOf l).Nodup) :
    (keysOf (files.foldl (fun h f => setEntry h f (g f)) l)).Nodup := by
  induction files generalizing l with
  | nil => exact h
  | cons f rest ih =>
    rw [List.foldl_cons]
    exact ih _ (dictKeys_dictSet_nodup h)

theorem nodup_foldl_delEntry (files : List String) (l : Sect)
    (h : (keysOf l).Nodup) :
    (keysOf (files.foldl (fun h f => delEntry h f) l)).Nodup := by
  induction files generalizing l with
  | nil => exact h
  | cons f rest ih =>
    rw [List.foldl_cons]
    exact ih _ (dictKeys_dictDel_nodup h)

/-- C4: after every successful sync, the local manifest file's `HEAD`
(as a path → hash mapping) equals the remote manifest's `HEAD`, the local
manifest file holding the sorted entries on disk; the remote manifest file
is not modified. The hypothesis is well-formedness of the local manifest
(unique `HEAD` keys, as any manifest read from disk has). -/
theorem sync_local_matches_remote (pt : Nat) (s s2 : St)
    (hnd : (keysOf s.localFile.head).Nodup)
    (h : sync pt s = Except.ok s2) :
    (∀ k, lookupSec s2.localFile.head k = lookupSec s.remoteFile.head k) ∧
    s2.remoteFile = s.remoteFile := by
  unfold sync at h
  by_cases hrd : diffTruthy (configDiff s.localFile s.remoteFile) = true
  · simp only [hrd, not_true_eq_false, if_false] at h
    by_cases hie : (computeConflicts (configDiff s.localFile s.remoteFile)
        (configDiff s.localFile
          (buildConfigForRoot s.workspace (ignorePatterns s.remoteFile)))).isEmpty = true
    · simp only [hie, not_true_eq_false, if_false, Except.ok.injEq] at h
      subst h
      constructor
      · intro k
        rw [head_setSection]
        set rh := s.remoteFile.head with hrh
        set addMod := (configDiff s.localFile s.remoteFile).added ++
          (configDiff s.localFile s.remoteFile).modified with haddMod
        set fin := ((configDiff s.localFile s.remoteFile).missing.foldl syncDel
          ((addMod.foldl (syncStep rh)
            (cachePull pt s, s.localFile.head)))).2 with hfin
        have hsnd : fin = (configDiff s.localFile s.remoteFile).missing.foldl
            (fun h f => delEntry h f)
            (addMod.foldl (fun h f => setEntry h f ((lookupSec rh f).getD ""))
              s.localFile.head) := by
          rw [hfin, foldl_syncDel_snd, foldl_syncStep_snd]
        have hnd2 : (keysOf fin).Nodup := by
          rw [hsnd]
          exact nodup_foldl_delEntry _ _ (nodup_foldl_setEntry _ _ _ hnd)
        rw [lookupSec_sortEntries hnd2, hsnd, lookup_foldl_delEntry,
          lookup_foldl_setEntry]
        by_cases hmis : k ∈ (configDiff s.localFile s.remoteFile).missing
        · rw [if_pos hmis]
          obtain ⟨_, hnr⟩ := mem_missing.mp hmis
          exact (dictGet_eq_none_iff.mpr hnr).symm
        · rw [if_neg hmis]
          by_cases ham : k ∈ addMod
          · rw [if_pos ham]
            have hkr : k ∈ keysOf s.remoteFile.head := by
              rcases List.mem_append.mp ham with ha | hm
              · exact (mem_added.mp ha).1
              · exact (mem_modified.mp hm).2.1
            cases hv : lookupSec rh k with
            | none =>
              exact absurd (dictGet_eq_none_iff.mp hv) (by simpa [hrh] using hkr)
            | some v => simp [hv]
          · rw [if_neg ham]
            by_cases hkl : k ∈ keysOf s.localFile.head
            · have hkr : hasKey s.remoteFile.head k = true := by
                by_contra hnr
                exact hmis (mem_missing.mpr ⟨hkl,
                  fun hm => hnr (dictHas_iff.mpr hm)⟩)
              by_contra hne
              exact ham (List.mem_append.mpr (Or.inr (mem_modified.mpr
                ⟨hkl, dictHas_iff.mp hkr, hne⟩)))
            · have h1 : lookupSec s.localFile.head k = none :=
                dictGet_eq_none_iff.mpr hkl
              have h2 : lookupSec s.remoteFile.head k = none := by
                apply dictGet_eq_none_iff.mpr
                intro hkr
                exact ham (List.mem_append.mpr (Or.inl (mem_added.mpr ⟨hkr, hkl⟩)))
              rw [h1, h2]
      · have hf1 := foldl_syncDel_frame
          ((configDiff s.localFile s.remoteFile).missing)
          (((configDiff s.localFile s.remoteFile).added ++
            (configDiff s.localFile s.remoteFile).modified).foldl
              (syncStep s.remoteFile.head) (cachePull pt s, s.localFile.head))
        have hf2 := foldl_syncStep_frame s.remoteFile.head
          ((configDiff s.localFile s.remoteFile).added ++
            (configDiff s.localFile s.remoteFile).modified)
          (cachePull pt s, s.localFile.head)
        exact hf1.1.trans hf2.1
    · have hie2 : (computeConflicts (configDiff s.localFile s.remoteFile)
          (configDiff s.localFile
            (buildConfigForRoot s.workspace
              (ignorePatterns s.remoteFile)))).isEmpty = false := by
        cases hx : (computeConflicts (configDiff s.localFile s.remoteFile)
            (configDiff s.localFile
              (buildConfigForRoot s.workspace
                (ignorePatterns s.remoteFile)))).isEmpty
        · rfl
        · exact absurd hx hie
      simp only [hie2, Bool.false_eq_true, not_false_eq_true, if_true] at h
      simp at h
  · have hrd0 : diffTruthy (configDiff s.localFile s.remoteFile) = false := by
      cases h0 : diffTruthy (configDiff s.localFile s.remoteFile)
      · rfl
      · exact absurd h0 hrd
    simp only [hrd0, Bool.false_eq_true, not_false_eq_true, if_true,
      Except.ok.injEq] at h
    subst h
    exact ⟨diffTruthy_eq_false_iff.mp hrd0, rfl⟩

/-- Witness for C4: syncing in a remote that added `b`. -/
theorem sync_local_matches_remote_witness :
    (∀ k, lookupSec
        (match sync 7 stSyncAdd with
          | Except.ok s2 => s2
          | Except.error e => e.2).localFile.head k =
      lookupSec stSyncAdd.remoteFile.head k) ∧
    (match sync 7 stSyncAdd with
      | Except.ok s2 => s2
      | Except.error e => e.2).remoteFile = stSyncAdd.remoteFile := by
  have h := sync_local_matches_remote 7 stSyncAdd
    (match sync 7 stSyncAdd with
      | Except.ok s2 => s2
      | Except.error e => e.2) (by decide) (by decide)
  exact h

theorem ingestLoop_ok_frame (t : Nat) (entries : List (PathC × WFile))
    (s s1 : St) (h : ingestLoop t entries s = Except.ok s1) :
    s1.workspace = s.workspace ∧ s1.localFile = s.localFile ∧
    s1.remoteFile = s.remoteFile ∧ s1.remoteStore = s.remoteStore := by
  induction entries generalizing s with
  | nil =>
    simp only [ingestLoop, Except.ok.injEq] at h
    subst h
    exact ⟨rfl, rfl, rfl, rfl⟩
  | cons e rest ih =>
    obtain ⟨p, wf⟩ := e
    rw [ingestLoop] at h
    by_cases hc : cacheHas s.cache wf.hash
    · rw [if_pos hc] at h
      exact ih _ h
    · rw [if_neg hc] at h
      by_cases hm : t < wf.mtime
      · rw [if_pos hm] at h
        simp at h
      · rw [if_neg hm] at h
        simpa using ih _ h

/-- C7: submit is idempotent: if a submit run succeeds, running submit again
on the resulting state (no workspace change in between) is a no-op — the
second call returns the state unchanged, so neither manifest moves. The
hypothesis is well-formedness of the working manifest (unique keys: distinct
walked files have distinct POSIX paths). -/
theorem submit_idempotent (t t2 : Nat) (s s2 : St)
    (hnd : (keysOf (buildConfigForRoot s.workspace
      (ignorePatterns s.remoteFile)).head).Nodup)
    (h : submit t s = Except.ok s2) :
    submit t2 s2 = Except.ok s2 := by
  unfold submit at h
  by_cases hwd : diffTruthy (configDiff s.localFile
      (buildConfigForRoot s.workspace (ignorePatterns s.remoteFile))) = true
  · simp only [hwd, not_true_eq_false, if_false] at h
    by_cases hrd : diffTruthy (configDiff s.localFile s.remoteFile) = true
    · simp [hrd] at h
    · have hrd0 : diffTruthy (configDiff s.localFile s.remoteFile) = false := by
        cases h0 : diffTruthy (configDiff s.localFile s.remoteFile)
        · rfl
        · exact absurd h0 hrd
      simp only [hrd0, Bool.false_eq_true, if_false] at h
      cases hing : ingestLoop t (trackedFiles s.workspace
          (ignorePatterns s.remoteFile)) s with
      | error pe =>
        rw [hing] at h
        simp at h
      | ok s1 =>
        rw [hing] at h
        simp only [Except.ok.injEq] at h
        obtain ⟨hws, hlf, hrf, hrs⟩ := ingestLoop_ok_frame t _ s s1 hing
        subst h
        apply (submit_noop_or_pendingRemote t2 _).1
        show diffTruthy (configDiff
          ((s.localFile.setSection "HEAD" (buildConfigForRoot s.workspace
              (ignorePatterns s.remoteFile)).head).setSection "HEAD"
            (sortEntries (buildConfigForRoot s.workspace
              (ignorePatterns s.remoteFile)).head))
          (buildConfigForRoot s1.workspace
            (ignorePatterns ((s.remoteFile.setSection "HEAD"
                (buildConfigForRoot s.workspace
                  (ignorePatterns s.remoteFile)).head).setSection "HEAD"
              (sortEntries (buildConfigForRoot s.workspace
                (ignorePatterns s.remoteFile)).head))))) = false
        have hpat : ignorePatterns ((s.remoteFile.setSection "HEAD"
            (buildConfigForRoot s.workspace
              (ignorePatterns s.remoteFile)).head).setSection "HEAD"
            (sortEntries (buildConfigForRoot s.workspace
              (ignorePatterns s.remoteFile)).head)) =
            ignorePatterns s.remoteFile := by
          apply ignorePatterns_congr
          rw [getSection_setSection_ne _ _ (by decide),
            getSection_setSection_ne _ _ (by decide)]
        rw [hpat, hws]
        apply diffTruthy_eq_false_iff.mpr
        intro k
        rw [head_setSection]
        exact lookupSec_sortEntries hnd
  · have hwd0 : diffTruthy (configDiff s.localFile
        (buildConfigForRoot s.workspace (ignorePatterns s.remoteFile))) = false := by
      cases h0 : diffTruthy (configDiff s.localFile
          (buildConfigForRoot s.workspace (ignorePatterns s.remoteFile)))
      · rfl
      · exact absurd h0 hwd
    simp only [hwd0, Bool.false_eq_true, not_false_eq_true, if_true,
      Except.ok.injEq] at h
    subst h
    exact (submit_noop_or_pendingRemote t2 s).1 hwd0

/-- Witness for C7: submitting the edit in `stEdit` and submitting again. -/
theorem submit_idempotent_witness : submit 9 stEditDone = Except.ok stEditDone :=
  submit_idempotent 5 9 stEdit stEditDone (by decide) (by decide)

theorem cacheHas_cacheWrite {c : List (String × Nat)} {n m : String} {mt : Nat} :
    cacheHas (cacheWrite c m mt) n = ((n == m) || cacheHas c n) := by
  unfold cacheWrite
  by_cases hh : cacheHas c m
  · rw [if_pos hh]
    have hfun : ((fun e : String × Nat => e.1 == n) ∘
        (fun e : String × Nat => if e.1 == m then (m, mt) else e)) =
        (fun e : String × Nat => e.1 == n) := by
      funext e
      simp only [Function.comp_apply]
      by_cases hem : e.1 = m
      · simp [beq_iff_eq.mpr hem, hem]
      · simp [beq_eq_false_iff_ne.mpr hem]
    have hmap : cacheHas (c.map (fun e => if e.1 == m then (m, mt) else e)) n =
        cacheHas c n := by
      unfold cacheHas
      rw [List.any_map, hfun]
    rw [hmap]
    by_cases hnm : n = m
    · subst hnm
      simp [hh]
    · simp [beq_eq_false_iff_ne.mpr (by simpa using hnm)]
  · rw [if_neg hh]
    unfold cacheHas
    simp only [List.any_cons]
    by_cases hnm : n = m
    · subst hnm
      simp
    · rw [beq_eq_false_iff_ne.mpr (fun h => hnm h.symm),
        beq_eq_false_iff_ne.mpr hnm]

theorem dictHas_dictDel {α : Type} {l : Dict α} {k k' : String} :
    dictHas (dictDel l k) k' = if k' = k then false else dictHas l k' := by
  induction l with
  | nil =>
    simp only [dictDel, List.filter_nil, dictHas, List.any_nil]
    split <;> rfl
  | cons e t ih =>
    by_cases hek : e.1 = k <;> by_cases hk' : k' = k <;> by_cases hek' : e.1 = k' <;>
      simp_all [dictDel_cons, dictHas_cons, beq_iff_eq]

theorem cacheHas_cacheErase_self {c : List (String × Nat)} {m : String} :
    cacheHas (cacheErase c m) m = false := by
  have h := @dictHas_dictDel Nat c m m
  rw [if_pos rfl] at h
  exact h

theorem cacheHas_cacheErase_ne {c : List (String × Nat)} {n m : String}
    (h : n ≠ m) : cacheHas (cacheErase c m) n = cacheHas c n := by
  have hd := @dictHas_dictDel Nat c m n
  rw [if_neg h] at hd
  exact hd

theorem ingestLoop_error_facts (t : Nat) (entries : List (PathC × WFile))
    (s : St) (p : String) (s1 : St)
    (htemp : ∀ e ∈ entries, tempPrefixed e.2.hash = false)
    (h : ingestLoop t entries s = Except.error (p, s1)) :
    (∃ e ∈ entries, posixJoin e.1 = p ∧ t < e.2.mtime) ∧
    s1.localFile = s.localFile ∧ s1.remoteFile = s.remoteFile ∧
    s1.workspace = s.workspace ∧ s1.remoteStore = s.remoteStore ∧
    (∀ n, tempPrefixed n = true → cacheHas s1.cache n = true →
      cacheHas s.cache n = true) ∧
    (∀ q, FsEv.writeFile q ∈ s1.trace → FsEv.writeFile q ∈ s.trace) := by
  induction entries generalizing s with
  | nil => simp [ingestLoop] at h
  | cons e rest ih =>
    obtain ⟨pc, wf⟩ := e
    rw [ingestLoop] at h
    by_cases hc : cacheHas s.cache wf.hash
    · rw [if_pos hc] at h
      obtain ⟨⟨e2, he2, hp2, hm2⟩, hfr⟩ :=
        ih _ (fun e he => htemp e (List.mem_cons.mpr (Or.inr he))) h
      exact ⟨⟨e2, List.mem_cons.mpr (Or.inr he2), hp2, hm2⟩, hfr⟩
    · rw [if_neg hc] at h
      by_cases hm : t < wf.mtime
      · rw [if_pos hm] at h
        simp only [Except.error.injEq, Prod.mk.injEq] at h
        obtain ⟨hp, hs1⟩ := h
        subst hp
        subst hs1
        refine ⟨⟨(pc, wf), List.mem_cons.mpr (Or.inl rfl), rfl, hm⟩,
          rfl, rfl, rfl, rfl, ?_, ?_⟩
        · intro n htp hhas
          by_cases hn : n = "temp." ++ wf.hash
          · rw [hn] at hhas
            rw [cacheHas_cacheErase_self] at hhas
            simp at hhas
          · rw [cacheHas_cacheErase_ne hn, cacheHas_cacheWrite] at hhas
            rcases Bool.or_eq_true_iff.mp hhas with h1 | h2
            · exact absurd (beq_iff_eq.mp h1) hn
            · exact h2
        · intro q hq
          simp only [List.append_assoc, List.mem_append] at hq
          rcases hq with hq | hq
          · exact hq
          · simp at hq
      · rw [if_neg hm] at h
        obtain ⟨⟨e2, he2, hp2, hm2⟩, hlf, hrf, hws, hrs, hcache, htr⟩ :=
          ih _ (fun e he => htemp e (List.mem_cons.mpr (Or.inr he))) h
        refine ⟨⟨e2, List.mem_cons.mpr (Or.inr he2), hp2, hm2⟩,
          hlf, hrf, hws, hrs, ?_, ?_⟩
        · intro n htp hhas
          have h2 := hcache n htp hhas
          dsimp only at h2
          rw [cacheHas_cacheWrite] at h2
          rcases Bool.or_eq_true_iff.mp h2 with h3 | h4
          · have : n = wf.hash := beq_iff_eq.mp h3
            rw [this] at htp
            rw [htemp (pc, wf) (List.mem_cons.mpr (Or.inl rfl))] at htp
            simp at htp
          · by_cases hn : n = "temp." ++ wf.hash
            · rw [hn, cacheHas_cacheErase_self] at h4
              simp at h4
            · rw [cacheHas_cacheErase_ne hn, cacheHas_cacheWrite] at h4
              rcases Bool.or_eq_true_iff.mp h4 with h5 | h6
              · exact absurd (beq_iff_eq.mp h5) hn
              · exact h6
        · intro q hq
          have h2 := htr q hq
          dsimp only at h2
          simp only [List.append_assoc, List.mem_append] at h2
          rcases h2 with h2 | h2
          · exact h2
          · simp at h2

theorem ingestLoop_must_error (t : Nat) (entries : List (PathC × WFile))
    (s : St)
    (hex : ∃ e ∈ entries, t < e.2.mtime ∧ cacheHas s.cache e.2.hash = false ∧
      ∀ e2 ∈ entries, e2.2.hash = e.2.hash → t < e2.2.mtime) :
    ∃ p s1, ingestLoop t entries s = Except.error (p, s1) := by
  induction entries generalizing s with
  | nil =>
    obtain ⟨e, he, _⟩ := hex
    simp at he
  | cons hd rest ih =>
    obtain ⟨pc, wg⟩ := hd
    obtain ⟨e, he, hmt, hnc, hall⟩ := hex
    rw [ingestLoop]
    by_cases hc : cacheHas s.cache wg.hash
    · rw [if_pos hc]
      apply ih
      have herest : e ∈ rest := by
        rcases List.mem_cons.mp he with h0 | h0
        · rw [h0] at hnc
          rw [hnc] at hc
          simp at hc
        · exact h0
      exact ⟨e, herest, hmt, hnc,
        fun e2 h2 hh => hall e2 (List.mem_cons.mpr (Or.inr h2)) hh⟩
    · rw [if_neg hc]
      by_cases hm : t < wg.mtime
      · rw [if_pos hm]
        exact ⟨_, _, rfl⟩
      · rw [if_neg hm]
        apply ih
        have herest : e ∈ rest := by
          rcases List.mem_cons.mp he with h0 | h0
          · rw [h0] at hmt
            exact absurd hmt hm
          · exact h0
        have hhne : e.2.hash ≠ wg.hash := fun hh =>
          hm (hall (pc, wg) (List.mem_cons.mpr (Or.inl rfl)) hh.symm)
        refine ⟨e, herest, hmt, ?_,
          fun e2 h2 hh => hall e2 (List.mem_cons.mpr (Or.inr h2)) hh⟩
        dsimp only
        rw [cacheHas_cacheWrite]
        have h1 : (e.2.hash == wg.hash) = false := beq_eq_false_iff_ne.mpr hhne
        rw [h1]
        by_cases hn : e.2.hash = "temp." ++ wg.hash
        · rw [hn, cacheHas_cacheErase_self]
          rfl
        · rw [cacheHas_cacheErase_ne hn, cacheHas_cacheWrite,
            beq_eq_false_iff_ne.mpr hn, hnc]
          rfl

/-- C1 counterexample: in `stClean` the only workspace file's mtime (10)
exceeds the submit start time (5) — the file was touched after submit began —
yet submit succeeds as a no-op instead of failing with
`ModifiedDuringRunError`: the working diff is empty, so the guard is never
reached. -/
theorem submit_modified_no_failure :
    (stClean.workspace.any (fun e => decide (5 < e.2.mtime))) = true ∧
    submit 5 stClean = Except.ok stClean := by
  constructor
  · decide
  · decide

/-- C1 (amended): when the ingest loop of a non-no-op, fast-forward submit
reaches a tracked file whose mtime exceeds `start_time` and whose hash is
not already cached (nor ingested on the way by an unmodified twin), submit
fails with `ModifiedDuringRunError` naming a path modified during the run;
at the failure the temp file has been deleted (no temp name is in the cache
that was not there before), and neither the local nor the remote manifest
file has been written. -/
theorem submit_modifiedDuringRun_guard (t : Nat) (s : St)
    (hwd : diffTruthy (configDiff s.localFile
      (buildConfigForRoot s.workspace (ignorePatterns s.remoteFile))) = true)
    (hrd : diffTruthy (configDiff s.localFile s.remoteFile) = false)
    (htemp : ∀ e ∈ trackedFiles s.workspace (ignorePatterns s.remoteFile),
      tempPrefixed e.2.hash = false)
    (hmod : ∃ e ∈ trackedFiles s.workspace (ignorePatterns s.remoteFile),
      t < e.2.mtime ∧ cacheHas s.cache e.2.hash = false ∧
      ∀ e2 ∈ trackedFiles s.workspace (ignorePatterns s.remoteFile),
        e2.2.hash = e.2.hash → t < e2.2.mtime) :
    ∃ p s1, submit t s = Except.error (ClientErr.modifiedDuringRun p, s1) ∧
      (∃ e ∈ trackedFiles s.workspace (ignorePatterns s.remoteFile),
        posixJoin e.1 = p ∧ t < e.2.mtime) ∧
      s1.localFile = s.localFile ∧ s1.remoteFile = s.remoteFile ∧
      s1.workspace = s.workspace ∧ s1.remoteStore = s.remoteStore ∧
      (∀ n, tempPrefixed n = true → cacheHas s1.cache n = true →
        cacheHas s.cache n = true) ∧
      (∀ q, FsEv.writeFile q ∈ s1.trace → FsEv.writeFile q ∈ s.trace) := by
  obtain ⟨p, s1, herr⟩ := ingestLoop_must_error t
    (trackedFiles s.workspace (ignorePatterns s.remoteFile)) s hmod
  obtain ⟨hnames, hfacts⟩ := ingestLoop_error_facts t _ s p s1 htemp herr
  refine ⟨p, s1, ?_, hnames, hfacts⟩
  unfold submit
  simp only [hwd, not_true_eq_false, if_false, hrd, Bool.false_eq_true,
    if_false, herr]

/-- Witness for C1's amended guard: `stMidRun`, whose file `a` was rewritten
to `h2` while submit was running (mtime 20 > start 5). -/
theorem submit_modifiedDuringRun_guard_witness :
    ∃ p s1, submit 5 stMidRun = Except.error (ClientErr.modifiedDuringRun p, s1) ∧
      (∃ e ∈ trackedFiles stMidRun.workspace (ignorePatterns stMidRun.remoteFile),
        posixJoin e.1 = p ∧ 5 < e.2.mtime) ∧
      s1.localFile = stMidRun.localFile ∧ s1.remoteFile = stMidRun.remoteFile ∧
      s1.workspace = stMidRun.workspace ∧ s1.remoteStore = stMidRun.remoteStore ∧
      (∀ n, tempPrefixed n = true → cacheHas s1.cache n = true →
        cacheHas stMidRun.cache n = true) ∧
      (∀ q, FsEv.writeFile q ∈ s1.trace → FsEv.writeFile q ∈ stMidRun.trace) :=
  submit_modifiedDuringRun_guard 5 stMidRun (by decide) (by decide) (by decide)
    ⟨(["a"], ⟨"h2", 20⟩), by decide, by decide, by decide, by decide⟩

theorem foldl_syncStep_trace (rh : Sect) (files : List String)
    (acc : St × Sect) (a b : String) :
    FsEv.rename a b ∈ (files.foldl (syncStep rh) acc).1.trace →
      FsEv.rename a b ∈ acc.1.trace := by
  induction files generalizing acc with
  | nil => exact id
  | cons f rest ih =>
    intro h
    have h2 := ih _ h
    simp only [syncStep, List.mem_append] at h2
    rcases h2 with h2 | h2
    · exact h2
    · simp at h2

theorem foldl_syncDel_trace (files : List String) (acc : St × Sect)
    (a b : String) :
    FsEv.rename a b ∈ (files.foldl syncDel acc).1.trace →
      FsEv.rename a b ∈ acc.1.trace := by
  induction files generalizing acc with
  | nil => exact id
  | cons f rest ih =>
    intro h
    have h2 := ih _ h
    simp only [syncDel, List.mem_append] at h2
    rcases h2 with h2 | h2
    · exact h2
    · simp at h2

theorem ingestLoop_ok_trace (t : Nat) (entries : List (PathC × WFile))
    (s s1 : St) (h : ingestLoop t entries s = Except.ok s1) (a b : String) :
    FsEv.rename a b ∈ s1.trace →
      FsEv.rename a b ∈ s.trace ∨ ∃ k, b = "cache/" ++ k := by
  induction entries generalizing s with
  | nil =>
    simp only [ingestLoop, Except.ok.injEq] at h
    subst h
    exact Or.inl
  | cons e rest ih =>
    obtain ⟨pc, wf⟩ := e
    rw [ingestLoop] at h
    by_cases hc : cacheHas s.cache wf.hash
    · rw [if_pos hc] at h
      exact ih _ h
    · rw [if_neg hc] at h
      by_cases hm : t < wf.mtime
      · rw [if_pos hm] at h
        simp at h
      · rw [if_neg hm] at h
        intro hmem
        rcases ih _ h hmem with h2 | h2
        · dsimp only at h2
          simp only [List.append_assoc, List.mem_append] at h2
          rcases h2 with h2 | h2
          · exact Or.inl h2
          · simp only [List.mem_append, List.mem_singleton] at h2
            rcases h2 with h2 | h2
            · simp at h2
            · cases h2
              exact Or.inr ⟨wf.hash, rfl⟩
        · exact Or.inr h2

/-- C5 counterexample: a successful submit writes the local manifest with a
plain in-place file write (`open(path, "w")` in `WriteConfig`), and no
rename ever targets a manifest path — the write-to-temp-then-rename protocol
is not used for manifests. -/
theorem manifest_written_in_place :
    submit 5 stEdit = Except.ok stEditDone ∧
    FsEv.writeFile localManifestPath ∈ stEditDone.trace ∧
    stEditDone.trace.all (fun ev =>
      match ev with
      | FsEv.rename _ d =>
        decide (d ≠ localManifestPath ∧ d ≠ remoteManifestPath)
      | _ => true) = true := by
  refine ⟨by decide, by decide, by decide⟩

/-- C5 (amended): both manifest files are written in place — a successful
non-no-op submit emits plain `writeFile` events for the local and the remote
manifest paths, and every rename it performs targets a cache object (the
temp-then-rename protocol is used only for cache ingestion); sync performs
no rename at all. -/
theorem manifest_writes_not_renamed (t pt : Nat) (s s2 s3 : St) :
    (submit t s = Except.ok s2 →
      (s2 ≠ s → FsEv.writeFile localManifestPath ∈ s2.trace ∧
        FsEv.writeFile remoteManifestPath ∈ s2.trace) ∧
      (∀ a b, FsEv.rename a b ∈ s2.trace →
        FsEv.rename a b ∈ s.trace ∨ ∃ k, b = "cache/" ++ k)) ∧
    (sync pt s = Except.ok s3 →
      ∀ a b, FsEv.rename a b ∈ s3.trace → FsEv.rename a b ∈ s.trace) := by
  constructor
  · intro h
    unfold submit at h
    by_cases hwd : diffTruthy (configDiff s.localFile
        (buildConfigForRoot s.workspace (ignorePatterns s.remoteFile))) = true
    · simp only [hwd, not_true_eq_false, if_false] at h
      by_cases hrd : diffTruthy (configDiff s.localFile s.remoteFile) = true
      · simp [hrd] at h
      · have hrd0 : diffTruthy (configDiff s.localFile s.remoteFile) = false := by
          cases h0 : diffTruthy (configDiff s.localFile s.remoteFile)
          · rfl
          · exact absurd h0 hrd
        simp only [hrd0, Bool.false_eq_true, if_false] at h
        cases hing : ingestLoop t (trackedFiles s.workspace
            (ignorePatterns s.remoteFile)) s with
        | error pe =>
          rw [hing] at h
          simp at h
        | ok s1 =>
          rw [hing] at h
          simp only [Except.ok.injEq] at h
          subst h
          constructor
          · intro _
            constructor
            · simp [cachePush, List.mem_append]
            · simp [cachePush, List.mem_append]
          · intro a b hmem
            dsimp only at hmem
            simp only [cachePush, List.append_assoc, List.mem_append] at hmem
            rcases hmem with hmem | hmem
            · exact ingestLoop_ok_trace t _ s s1 hing a b hmem
            · rcases hmem with hmem | hmem
              · obtain ⟨k, _, hk⟩ := List.mem_map.mp hmem
                simp at hk
              · simp only [List.mem_append, List.mem_singleton] at hmem
                rcases hmem with hmem | hmem <;> simp at hmem
    · have hwd0 : diffTruthy (configDiff s.localFile
          (buildConfigForRoot s.workspace (ignorePatterns s.remoteFile))) = false := by
        cases h0 : diffTruthy (configDiff s.localFile
            (buildConfigForRoot s.workspace (ignorePatterns s.remoteFile)))
        · rfl
        · exact absurd h0 hwd
      simp only [hwd0, Bool.false_eq_true, not_false_eq_true, if_true,
        Except.ok.injEq] at h
      subst h
      exact ⟨fun hne => absurd rfl hne, fun a b hmem => Or.inl hmem⟩
  · intro h
    unfold sync at h
    by_cases hrd : diffTruthy (configDiff s.localFile s.remoteFile) = true
    · simp only [hrd, not_true_eq_false, if_false] at h
      by_cases hie : (computeConflicts (configDiff s.localFile s.remoteFile)
          (configDiff s.localFile
            (buildConfigForRoot s.workspace
              (ignorePatterns s.remoteFile)))).isEmpty = true
      · simp only [hie, not_true_eq_false, if_false, Except.ok.injEq] at h
        subst h
        intro a b hmem
        dsimp only at hmem
        simp only [List.mem_append, List.mem_singleton] at hmem
        rcases hmem with hmem | hmem
        · have h2 := foldl_syncDel_trace _ _ a b hmem
          have h3 := foldl_syncStep_trace _ _ _ a b h2
          simp only [cachePull, List.mem_append] at h3
          rcases h3 with h3 | h3
          · exact h3
          · obtain ⟨k, _, hk⟩ := List.mem_map.mp h3
            simp at hk
        · simp at hmem
      · have hie2 : (computeConflicts (configDiff s.localFile s.remoteFile)
            (configDiff s.localFile
              (buildConfigForRoot s.workspace
                (ignorePatterns s.remoteFile)))).isEmpty = false := by
          cases hx : (computeConflicts (configDiff s.localFile s.remoteFile)
              (configDiff s.localFile
                (buildConfigForRoot s.workspace
                  (ignorePatterns s.remoteFile)))).isEmpty
          · rfl
          · exact absurd hx hie
        simp only [hie2, Bool.false_eq_true, not_false_eq_true, if_true] at h
        simp at h
    · have hrd0 : diffTruthy (configDiff s.localFile s.remoteFile) = false := by
        cases h0 : diffTruthy (configDiff s.localFile s.remoteFile)
        · rfl
        · exact absurd h0 hrd
      simp only [hrd0, Bool.false_eq_true, not_false_eq_true, if_true,
        Except.ok.injEq] at h
      subst h
      exact fun a b hmem => hmem

/-- Witness for C5's amended theorem at the concrete submit and sync runs. -/
theorem manifest_writes_not_renamed_witness :
    (FsEv.writeFile localManifestPath ∈ stEditDone.trace ∧
      FsEv.writeFile remoteManifestPath ∈ stEditDone.trace) ∧
    (∀ a b, FsEv.rename a b ∈ stEditDone.trace →
      FsEv.rename a b ∈ stEdit.trace ∨ ∃ k, b = "cache/" ++ k) := by
  have h := (manifest_writes_not_renamed 5 7 stEdit stEditDone stEdit).1
    (by decide)
  exact ⟨h.1 (by decide), h.2⟩

theorem splitSlash_no_slash {c : List Char} (h : '/' ∉ c) :
    splitSlash c = [c] := by
  induction c with
  | nil => rfl
  | cons ch cs ih =>
    have hch : ¬ (ch == '/') = true := by
      simp only [beq_iff_eq]
      intro hh
      exact h (hh ▸ List.mem_cons_self ch cs)
    have hcs : '/' ∉ cs := fun hm => h (List.mem_cons.mpr (Or.inr hm))
    show splitOnPred (fun c => c == '/') (ch :: cs) = [ch :: cs]
    rw [splitOnPred]
    simp only [hch, Bool.false_eq_true, if_false]
    rw [show splitOnPred (fun c => c == '/') cs = splitSlash cs from rfl, ih hcs]

theorem splitSlash_append {c t : List Char} (h : '/' ∉ c) :
    splitSlash (c ++ '/' :: t) = c :: splitSlash t := by
  induction c with
  | nil =>
    show splitOnPred (fun c => c == '/') ('/' :: t) = [] :: splitSlash t
    rw [splitOnPred]
    simp
    rfl
  | cons ch cs ih =>
    have hch : ¬ (ch == '/') = true := by
      simp only [beq_iff_eq]
      intro hh
      exact h (hh ▸ List.mem_cons_self ch cs)
    have hcs : '/' ∉ cs := fun hm => h (List.mem_cons.mpr (Or.inr hm))
    show splitOnPred (fun c => c == '/') (ch :: (cs ++ '/' :: t)) =
      (ch :: cs) :: splitSlash t
    rw [splitOnPred]
    simp only [hch, Bool.false_eq_true, if_false]
    rw [show splitOnPred (fun c => c == '/') (cs ++ '/' :: t) =
      splitSlash (cs ++ '/' :: t) from rfl, ih hcs]

theorem splitSlash_joinC : ∀ {cs : List (List Char)}, cs ≠ [] →
    (∀ c ∈ cs, '/' ∉ c) → splitSlash (joinC cs) = cs
  | [], h, _ => absurd rfl h
  | [c], _, hns => by
    rw [show joinC [c] = c from rfl]
    exact splitSlash_no_slash (hns c (List.mem_singleton.mpr rfl))
  | c :: d :: rest, _, hns => by
    rw [show joinC (c :: d :: rest) = c ++ '/' :: joinC (d :: rest) from rfl,
      splitSlash_append (hns c (List.mem_cons_self c _))]
    rw [splitSlash_joinC (by simp) (fun x hx => hns x (List.mem_cons.mpr (Or.inr hx)))]

theorem mk_data_eq (s : String) : String.mk s.data = s := by
  cases s
  rfl

theorem splitPosix_posixJoin {p : PathC} (h : wfPathC p) :
    splitPosix (posixJoin p) = p := by
  obtain ⟨hne, hns⟩ := h
  unfold splitPosix posixJoin
  rw [show (String.mk (joinC (p.map String.data))).data =
    joinC (p.map String.data) from rfl]
  rw [splitSlash_joinC (by simpa using hne)
    (fun c hc => by
      obtain ⟨comp, hcomp, hceq⟩ := List.mem_map.mp hc
      exact hceq ▸ hns comp hcomp)]
  rw [List.map_map]
  apply List.map_id''
  intro comp
  exact mk_data_eq comp

theorem posixJoin_inj {p q : PathC} (hp : wfPathC p) (hq : wfPathC q)
    (h : posixJoin p = posixJoin q) : p = q := by
  rw [← splitPosix_posixJoin hp, ← splitPosix_posixJoin hq, h]

theorem zip_reverse_of_length_eq {α β : Type} :
    ∀ {l1 : List α} {l2 : List β}, l1.length = l2.length →
      l1.reverse.zip l2.reverse = (l1.zip l2).reverse
  | [], [], _ => rfl
  | [], _ :: _, h => by simp at h
  | _ :: _, [], h => by simp at h
  | a :: l1, b :: l2, h => by
    have hl : l1.length = l2.length := by simpa using h
    simp only [List.reverse_cons, List.zip_cons_cons]
    rw [List.zip_append (by simpa using hl), zip_reverse_of_length_eq hl]
    rfl

theorem ancestorDirs_ne_nil {p : PathC} : ∀ d ∈ ancestorDirs p, d ≠ [] := by
  induction p with
  | nil => intro d hd; simp [ancestorDirs] at hd
  | cons a rest ih =>
    intro d hd
    cases rest with
    | nil => simp [ancestorDirs] at hd
    | cons b rest2 =>
      rw [show ancestorDirs (a :: b :: rest2) =
        [a] :: (ancestorDirs (b :: rest2)).map (fun d => a :: d) from rfl] at hd
      rcases List.mem_cons.mp hd with h0 | h0
      · rw [h0]; simp
      · obtain ⟨d2, _, hd2⟩ := List.mem_map.mp h0
        rw [← hd2]; simp

theorem pathMatch_of_anchoredMatch {p : PathC} {pat : String} (hp : p ≠ [])
    (h : anchoredMatch p (patParts pat) = true) : pathMatch p pat = true := by
  unfold anchoredMatch at h
  obtain ⟨hlen, hall⟩ := Bool.and_eq_true_iff.mp h
  have hlen2 : p.length = (patParts pat).length := by simpa using hlen
  unfold pathMatch
  refine Bool.and_eq_true_iff.mpr ⟨Bool.and_eq_true_iff.mpr ⟨?_, ?_⟩, ?_⟩
  · have : (patParts pat).length ≠ 0 := by
      rw [← hlen2]
      simpa using fun he => hp (List.length_eq_zero.mp he)
    simpa [List.isEmpty_iff] using fun he => this (by rw [he]; rfl)
  · simp [← hlen2]
  · rw [zip_reverse_of_length_eq hlen2]
    simpa using hall

theorem excluded_of_specMatches {p : PathC} {pat : String}
    {patterns : List String} (hp : p ≠ []) (hpat : pat ∈ patterns)
    (h : specMatches p pat = true) : excludedPath p patterns = true := by
  unfold specMatches at h
  by_cases hslash : endsSlash pat = true
  · rw [if_pos hslash] at h
    obtain ⟨d, hd, hmatch⟩ := List.any_eq_true.mp h
    have hdm : pathMatch d pat = true :=
      pathMatch_of_anchoredMatch (ancestorDirs_ne_nil d hd) hmatch
    unfold excludedPath
    apply Bool.or_eq_true_iff.mpr
    right
    exact List.any_eq_true.mpr ⟨d, hd,
      List.any_eq_true.mpr ⟨pat, hpat, hdm⟩⟩
  · rw [if_neg hslash] at h
    have hm : pathMatch p pat = true := pathMatch_of_anchoredMatch hp h
    unfold excludedPath
    apply Bool.or_eq_true_iff.mpr
    left
    exact List.any_eq_true.mpr ⟨pat, hpat, hm⟩

/-- C8: a path whose POSIX relative path matches an ignore pattern under
shell-glob semantics — trailing slash meaning directory-only (the spec's
§4.3 reading, `specMatches`) — never appears as a key of a manifest built
from the workspace; and the built-in ignore list always contains `.HEAD`,
even when no `ignore` key is configured. Paths are assumed well formed
(non-empty, slash-free components), as a filesystem walk yields them. -/
theorem ignored_paths_never_in_manifest :
    (∀ (ws : List (PathC × WFile)) (patterns : List String) (pat : String)
      (p : PathC), (∀ e ∈ ws, wfPathC e.1) → wfPathC p → pat ∈ patterns →
      specMatches p pat = true →
      posixJoin p ∉ keysOf (buildConfigForRoot ws patterns).head) ∧
    (∀ cfg : Config, ".HEAD" ∈ ignorePatterns cfg) := by
  constructor
  · intro ws patterns pat p hws hp hpat hmatch hmem
    rw [buildConfigForRoot_head] at hmem
    unfold keysOf dictKeys at hmem
    rw [List.map_map] at hmem
    obtain ⟨e, he, heq⟩ := List.mem_map.mp hmem
    have htr := he
    unfold trackedFiles at htr
    rw [List.mem_filter] at htr
    obtain ⟨hews, hnex⟩ := htr
    have hewf : wfPathC e.1 := hws e hews
    have heeq : e.1 = p := posixJoin_inj hewf hp heq
    have hex : excludedPath p patterns = true :=
      excluded_of_specMatches hp.1 hpat hmatch
    rw [← heeq] at hex
    rw [hex] at hnex
    simp at hnex
  · intro cfg
    unfold ignorePatterns
    cases lookupSec (cfg.getSection "config") "ignore" with
    | none => exact List.mem_singleton.mpr rfl
    | some t => exact List.mem_append.mpr (Or.inr (List.mem_singleton.mpr rfl))

/-- Witness for C8: a workspace holding `x.tmp` and `keep`, ignore pattern
`*.tmp`; `x.tmp` is not a key of the built manifest, and `.HEAD` is in the
default ignore list. -/
theorem ignored_paths_never_in_manifest_witness :
    posixJoin ["x.tmp"] ∉ keysOf (buildConfigForRoot
      [(["x.tmp"], ⟨"h", 1⟩), (["keep"], ⟨"h2", 1⟩)]
      ["*.tmp", ".HEAD"]).head ∧
    ".HEAD" ∈ ignorePatterns cfgA :=
  ⟨ignored_paths_never_in_manifest.1
      [(["x.tmp"], ⟨"h", 1⟩), (["keep"], ⟨"h2", 1⟩)] ["*.tmp", ".HEAD"]
      "*.tmp" ["x.tmp"] (by decide) (by decide) (by decide) (by decide),
   ignored_paths_never_in_manifest.2 cfgA⟩

theorem strLe_total : ∀ a b : List Char, strLe a b = true ∨ strLe b a = true
  | [], _ => Or.inl rfl
  | _ :: _, [] => Or.inr rfl
  | a :: as, b :: bs => by
    rcases lt_trichotomy a b with h | h | h
    · left
      simp [strLe, h]
    · subst h
      rcases strLe_total as bs with h2 | h2
      · left
        simp [strLe, lt_irrefl, h2]
      · right
        simp [strLe, lt_irrefl, h2]
    · right
      simp [strLe, h]

theorem strLe_trans {a b c : List Char} (h1 : strLe a b = true)
    (h2 : strLe b c = true) : strLe a c = true := by
  induction a generalizing b c with
  | nil => rfl
  | cons x as ih =>
    cases b with
    | nil => simp [strLe] at h1
    | cons y bs =>
      cases c with
      | nil => simp [strLe] at h2
      | cons z cs =>
        simp only [strLe] at h1 h2 ⊢
        by_cases hxy : x < y
        · by_cases hyz : y < z
          · simp [lt_trans hxy hyz]
          · by_cases hyz2 : y = z
            · subst hyz2
              simp [hxy]
            · simp [hyz, hyz2] at h2
        · by_cases hxy2 : x = y
          · subst hxy2
            rw [if_neg hxy, if_pos rfl] at h1
            by_cases hxz : x < z
            · simp [hxz]
            · by_cases hxz2 : x = z
              · subst hxz2
                rw [if_neg hxz, if_pos rfl] at h2 ⊢
                exact ih h1 h2
              · simp [hxz, hxz2] at h2
          · simp [hxy, hxy2] at h1

instance : IsTotal (String × String) entryLe :=
  ⟨fun a b => strLe_total a.1.data b.1.data⟩

instance : IsTrans (String × String) entryLe :=
  ⟨fun _ _ _ hab hbc => strLe_trans hab hbc⟩

theorem sortEntries_idem (s : Sect) :
    sortEntries (sortEntries s) = sortEntries s :=
  List.Sorted.insertionSort_eq (List.sorted_insertionSort entryLe s)

theorem dictSet_dictSet {α : Type} {l : Dict α} {k : String} {a b : α} :
    dictSet (dictSet l k a) k b = dictSet l k b := by
  unfold dictSet
  by_cases hh : dictHas l k
  · have hh2 : dictHas (l.map (fun e => if e.1 == k then (k, a) else e)) k = true := by
      unfold dictHas
      rw [List.any_map]
      obtain ⟨e, he, hek⟩ := List.any_eq_true.mp hh
      apply List.any_eq_true.mpr
      refine ⟨e, he, ?_⟩
      simp only [Function.comp_apply, hek]
      simp
    rw [if_pos hh, if_pos hh2, if_pos hh, List.map_map]
    apply List.map_congr_left
    intro e _
    simp only [Function.comp_apply]
    by_cases hek : e.1 = k
    · simp [beq_iff_eq.mpr hek]
    · simp [beq_eq_false_iff_ne.mpr hek]
  · have hh2 : dictHas (l ++ [(k, a)]) k = true := by
      unfold dictHas
      rw [List.any_append]
      simp
    rw [if_neg hh, if_pos hh2, List.map_append]
    have hl : l.map (fun e => if e.1 == k then (k, b) else e) = l.map id := by
      apply List.map_congr_left
      intro e he
      have : (e.1 == k) = false := by
        apply beq_eq_false_iff_ne.mpr
        intro hek
        apply hh
        unfold dictHas
        exact List.any_eq_true.mpr ⟨e, he, beq_iff_eq.mpr hek⟩
      simp [this]
    rw [hl, List.map_id, if_neg hh]
    simp

theorem writeConfigVal_idem (c : Config) :
    writeConfigVal (writeConfigVal c) = writeConfigVal c := by
  unfold writeConfigVal
  rw [show (c.setSection "HEAD" (sortEntries c.head)).head =
    sortEntries c.head from head_setSection c (sortEntries c.head)]
  rw [sortEntries_idem]
  show (Config.mk (dictSet (dictSet c.sections "HEAD" (sortEntries c.head))
    "HEAD" (sortEntries c.head))) = _
  rw [dictSet_dictSet]
  rfl

theorem trimL_cons_keep {c : Char} {t : List Char}
    (h : c.isWhitespace = false) : trimL (c :: t) = c :: t := by
  simp [trimL, List.dropWhile_cons, h]

theorem trimR_snoc_keep {c : Char} {l : List Char}
    (h : c.isWhitespace = false) : trimR (l ++ [c]) = l ++ [c] := by
  unfold trimR trimL
  rw [List.reverse_append]
  simp only [List.reverse_cons, List.reverse_nil, List.nil_append,
    List.singleton_append]
  rw [List.dropWhile_cons]
  simp [h]

theorem trimR_snoc_drop {c : Char} {l : List Char}
    (h : c.isWhitespace = true) : trimR (l ++ [c]) = trimR l := by
  unfold trimR trimL
  rw [List.reverse_append]
  simp only [List.reverse_cons, List.reverse_nil, List.nil_append,
    List.singleton_append]
  rw [List.dropWhile_cons]
  simp [h]

theorem trimL_eq_self_of_trimC {l : List Char} (h : trimC l = l) :
    trimL l = l := by
  have h1 : (trimL l).Sublist l := List.dropWhile_sublist _
  have h2 : (trimC l).Sublist (trimL l) := by
    unfold trimC trimR
    have := List.dropWhile_sublist (l := (trimL l).reverse)
      (p := Char.isWhitespace)
    have h3 := this.reverse
    simpa using h3
  rw [h] at h2
  exact (h2.eq_of_length (le_antisymm h2.length_le h1.length_le)).symm

theorem trimR_eq_self_of_trimC {l : List Char} (h : trimC l = l) :
    trimR l = l := by
  have h2 := trimL_eq_self_of_trimC h
  unfold trimC at h
  rw [h2] at h
  exact h

theorem head_not_space_of_trimL {c : Char} {t : List Char}
    (h : trimL (c :: t) = c :: t) : c.isWhitespace = false := by
  cases hw : c.isWhitespace
  · rfl
  · exfalso
    unfold trimL at h
    rw [List.dropWhile_cons, if_pos hw] at h
    have := List.dropWhile_sublist (l := t) (p := Char.isWhitespace)
    have hlen := this.length_le
    rw [h] at hlen
    simp at hlen

theorem splitFirstDelim_append {a t : List Char} (he : '=' ∉ a)
    (hc : ':' ∉ a) : splitFirstDelim (a ++ '=' :: t) = some (a, t) := by
  induction a with
  | nil =>
    show splitFirstDelim ('=' :: t) = some ([], t)
    rw [splitFirstDelim]
    simp
  | cons x xs ih =>
    have hx : ¬ (x = '=' || x = ':') = true := by
      simp only [Bool.or_eq_true, decide_eq_true_eq]
      rintro (h | h)
      · exact he (h ▸ List.mem_cons_self x xs)
      · exact hc (h ▸ List.mem_cons_self x xs)
    show splitFirstDelim (x :: (xs ++ '=' :: t)) = some (x :: xs, t)
    rw [splitFirstDelim]
    simp only [hx, Bool.false_eq_true, if_false]
    rw [ih (fun hm => he (List.mem_cons.mpr (Or.inr hm)))
      (fun hm => hc (List.mem_cons.mpr (Or.inr hm)))]
    rfl

theorem span_until_stop {x : Char} {t : List Char} :
    ∀ {a : List Char}, x ∉ a →
      (a ++ x :: t).span (fun ch => ch != x) = (a, x :: t) := by
  have main : ∀ (a : List Char), x ∉ a →
      (a ++ x :: t).takeWhile (fun ch => ch != x) = a ∧
      (a ++ x :: t).dropWhile (fun ch => ch != x) = x :: t := by
    intro a
    induction a with
    | nil =>
      intro _
      constructor <;> simp [List.takeWhile_cons, List.dropWhile_cons]
    | cons y ys ih =>
      intro h
      have hy : (y != x) = true := by
        simp only [bne_iff_ne]
        intro hh
        exact h (hh ▸ List.mem_cons_self y ys)
      have ihh := ih (fun hm => h (List.mem_cons.mpr (Or.inr hm)))
      simp only [List.cons_append, List.takeWhile_cons, List.dropWhile_cons,
        hy, if_true]
      exact ⟨by rw [ihh.1], ihh.2⟩
  intro a h
  rw [List.span_eq_take_drop, (main a h).1, (main a h).2]

theorem classifyLine_blank_nil : classifyLine [] = IniLine.blank := rfl

theorem classifyLine_header {n : String} (h : WfName n) :
    classifyLine ('[' :: n.data ++ [']']) = IniLine.header n := by
  obtain ⟨hne, _, hnb, _⟩ := h
  have htl : trimL ('[' :: (n.data ++ [']'])) = '[' :: (n.data ++ [']']) :=
    trimL_cons_keep (by decide)
  have htr : trimR (('[' :: n.data) ++ [']']) = ('[' :: n.data) ++ [']'] :=
    trimR_snoc_keep (by decide)
  unfold classifyLine trimC
  rw [show ('[' :: n.data ++ [']']) = '[' :: (n.data ++ [']']) from rfl, htl,
    show '[' :: (n.data ++ [']']) = ('[' :: n.data) ++ [']'] from rfl, htr]
  simp only [List.cons_append]
  rw [span_until_stop (x := ']') (t := []) hnb]
  have hni : n.data.isEmpty = false := by
    cases hd : n.data
    · exact absurd (by cases n; simp_all : n = "") hne
    · rfl
  simp [hni, mk_data_eq]

theorem trimR_length_le (l : List Char) : (trimR l).length ≤ l.length := by
  unfold trimR trimL
  have h := (List.dropWhile_sublist (l := l.reverse)
    (p := Char.isWhitespace)).length_le
  simpa using h

theorem last_not_space_of_trimR {c : Char} {l : List Char}
    (h : trimR (l ++ [c]) = l ++ [c]) : c.isWhitespace = false := by
  cases hw : c.isWhitespace
  · rfl
  · exfalso
    rw [trimR_snoc_drop hw] at h
    have h1 := trimR_length_le l
    rw [h] at h1
    simp at h1

theorem trimL_cons_space {c : Char} {t : List Char}
    (h : c.isWhitespace = true) : trimL (c :: t) = trimL t := by
  simp [trimL, List.dropWhile_cons, h]

theorem classifyLine_option {k v : String} (hk : WfKey k) (hv : WfVal v) :
    classifyLine (k.data ++ ' ' :: '=' :: ' ' :: v.data) =
      IniLine.option k v := by
  obtain ⟨hkne, hktrim, _, hkeq, hkcol, hkhead⟩ := hk
  obtain ⟨hvtrim, _⟩ := hv
  obtain ⟨kc, kt, hkd⟩ : ∃ kc kt, k.data = kc :: kt := by
    cases hd : k.data
    · exact absurd (by cases k; simp_all : k = "") hkne
    · exact ⟨_, _, rfl⟩
  have hkcw : kc.isWhitespace = false :=
    head_not_space_of_trimL (hkd ▸ trimL_eq_self_of_trimC hktrim)
  have hkc1 : kc ∈ k.data.take 1 := by rw [hkd]; simp
  obtain ⟨hkcbr, hkchash, hkcsemi⟩ := hkhead kc hkc1
  have hnodelim : '=' ∉ k.data ++ [' '] ∧ ':' ∉ k.data ++ [' '] := by
    constructor
    · intro hm
      rcases List.mem_append.mp hm with hm | hm
      · exact hkeq hm
      · simp at hm
    · intro hm
      rcases List.mem_append.mp hm with hm | hm
      · exact hkcol hm
      · simp at hm
  have hkeyval : String.mk (trimR (k.data ++ [' '])) = k := by
    rw [trimR_snoc_drop (by decide), trimR_eq_self_of_trimC hktrim,
      mk_data_eq]
  cases hvd : v.data with
  | nil =>
    rw [hvd] at hvtrim
    have hveq : v = "" := by
      cases v
      simp_all
    have hstrip : trimC (k.data ++ [' ', '=', ' ']) = k.data ++ [' ', '='] := by
      unfold trimC
      rw [hkd]
      simp only [List.cons_append]
      rw [trimL_cons_keep hkcw]
      rw [show kc :: (kt ++ [' ', '=', ' ']) =
        ((kc :: kt) ++ [' ', '=']) ++ [' '] from by simp,
        trimR_snoc_drop (by decide),
        show (kc :: kt) ++ [' ', '='] = ((kc :: kt) ++ [' ']) ++ ['='] from by
          simp,
        trimR_snoc_keep (by decide)]
      simp
    unfold classifyLine
    rw [hstrip, show k.data ++ [' ', '='] = kc :: (kt ++ [' ', '=']) from by
      rw [hkd]; simp]
    have hsplit : splitFirstDelim (kc :: (kt ++ [' ', '='])) =
        some (k.data ++ [' '], []) := by
      rw [show kc :: (kt ++ [' ', '=']) =
        (k.data ++ [' ']) ++ '=' :: [] from by rw [hkd]; simp]
      exact splitFirstDelim_append hnodelim.1 hnodelim.2
    simp only [hkchash, hkcsemi, hkcbr, decide_False, Bool.or_self,
      Bool.false_eq_true, if_false, hsplit]
    rw [hkeyval, hveq]
    rfl
  | cons vc vt =>
    rw [hvd] at hvtrim
    have hvcw : vc.isWhitespace = false :=
      head_not_space_of_trimL (trimL_eq_self_of_trimC hvtrim)
    obtain ⟨vl, vinit, hvrev⟩ : ∃ vl vinit, (vc :: vt).reverse = vl :: vinit := by
      cases hr : (vc :: vt).reverse
      · have := congrArg List.length hr
        simp at this
      · exact ⟨_, _, rfl⟩
    have hvdec : vc :: vt = vinit.reverse ++ [vl] := by
      have := congrArg List.reverse hvrev
      simpa using this
    have hvlw : vl.isWhitespace = false := by
      apply last_not_space_of_trimR (l := vinit.reverse)
      rw [← hvdec]
      exact trimR_eq_self_of_trimC hvtrim
    have hstrip : trimC (k.data ++ ' ' :: '=' :: ' ' :: vc :: vt) =
        k.data ++ ' ' :: '=' :: ' ' :: vc :: vt := by
      unfold trimC
      rw [hkd]
      simp only [List.cons_append]
      rw [trimL_cons_keep hkcw]
      rw [show kc :: (kt ++ ' ' :: '=' :: ' ' :: vc :: vt) =
        ((kc :: kt) ++ ' ' :: '=' :: ' ' :: vinit.reverse) ++ [vl] from by
          simp [hvdec],
        trimR_snoc_keep hvlw]
    unfold classifyLine
    rw [hstrip, show k.data ++ ' ' :: '=' :: ' ' :: vc :: vt =
      kc :: (kt ++ ' ' :: '=' :: ' ' :: vc :: vt) from by rw [hkd]; simp]
    have hsplit : splitFirstDelim (kc :: (kt ++ ' ' :: '=' :: ' ' :: vc :: vt)) =
        some (k.data ++ [' '], ' ' :: vc :: vt) := by
      rw [show kc :: (kt ++ ' ' :: '=' :: ' ' :: vc :: vt) =
        (k.data ++ [' ']) ++ '=' :: (' ' :: vc :: vt) from by rw [hkd]; simp]
      exact splitFirstDelim_append hnodelim.1 hnodelim.2
    simp only [hkchash, hkcsemi, hkcbr, decide_False, Bool.or_self,
      Bool.false_eq_true, if_false, hsplit]
    rw [show trimL (' ' :: vc :: vt) = trimL (vc :: vt) from
        trimL_cons_space (by decide),
      trimL_eq_self_of_trimC hvtrim, hkeyval, show String.mk (vc :: vt) = v from by
        rw [← hvd, mk_data_eq]]

/-! ### The manifest codec round-trip (LoadConfig after WriteConfig) -/

theorem splitNl_append {c t : List Char} (h : '\n' ∉ c) :
    splitLines (c ++ '\n' :: t) = c :: splitLines t := by
  induction c with
  | nil =>
    show splitOnPred (fun c => c == '\n') ('\n' :: t) = [] :: splitLines t
    rw [splitOnPred]
    simp
    rfl
  | cons ch cs ih =>
    have hch : ¬ (ch == '\n') = true := by
      simp only [beq_iff_eq]
      intro hh
      exact h (hh ▸ List.mem_cons_self ch cs)
    have hcs : '\n' ∉ cs := fun hm => h (List.mem_cons.mpr (Or.inr hm))
    show splitOnPred (fun c => c == '\n') (ch :: (cs ++ '\n' :: t)) =
      (ch :: cs) :: splitLines t
    rw [splitOnPred]
    simp only [hch, Bool.false_eq_true, if_false]
    rw [show splitOnPred (fun c => c == '\n') (cs ++ '\n' :: t) =
      splitLines (cs ++ '\n' :: t) from rfl, ih hcs]

theorem splitLines_joinLines : ∀ {ls : List (List Char)},
    (∀ l ∈ ls, '\n' ∉ l) → splitLines (joinLines ls) = ls ++ [[]]
  | [], _ => rfl
  | l :: ls, h => by
    rw [show joinLines (l :: ls) = l ++ '\n' :: joinLines ls from by
      unfold joinLines; simp]
    rw [splitNl_append (h l (List.mem_cons_self l ls)),
      splitLines_joinLines (fun x hx => h x (List.mem_cons.mpr (Or.inr hx)))]
    rfl

theorem dictHas_append {α : Type} {a b : Dict α} {k : String} :
    dictHas (a ++ b) k = (dictHas a k || dictHas b k) := by
  simp [dictHas, List.any_append]

theorem dictSet_fresh {α : Type} {l : Dict α} {k : String} {v : α}
    (h : dictHas l k = false) : dictSet l k v = l ++ [(k, v)] := by
  unfold dictSet
  rw [h]
  simp

theorem foldl_dictSet_fresh {α : Type} :
    ∀ {es : List (String × α)} {s : Dict α},
      (dictKeys es).Nodup → (∀ e ∈ es, dictHas s e.1 = false) →
      List.foldl (fun a e => dictSet a e.1 e.2) s es = s ++ es
  | [], s, _, _ => by simp
  | e :: es, s, hnd, hf => by
    rw [show dictKeys (e :: es) = e.1 :: dictKeys es from rfl] at hnd
    obtain ⟨hne, hnd2⟩ := List.nodup_cons.mp hnd
    rw [List.foldl_cons, dictSet_fresh (hf e (List.mem_cons_self e es))]
    rw [foldl_dictSet_fresh hnd2 (fun x hx => by
      rw [dictHas_append, hf x (List.mem_cons.mpr (Or.inr hx))]
      simp [dictHas, beq_iff_eq]
      intro hxe
      apply hne
      rw [hxe]
      exact List.mem_map.mpr ⟨x, hx, rfl⟩)]
    simp

theorem map_update_append {acc0 : Dict Sect} {n : String} {sec : Sect}
    {k v : String} (h : n ∉ dictKeys acc0) :
    (acc0 ++ [(n, sec)]).map
        (fun s => if s.1 == n then (n, dictSet s.2 k v) else s) =
      acc0 ++ [(n, dictSet sec k v)] := by
  rw [List.map_append]
  have h1 : acc0.map (fun s => if s.1 == n then (n, dictSet s.2 k v) else s)
      = acc0 := by
    conv_rhs => rw [← List.map_id acc0]
    apply List.map_congr_left
    intro s hs
    have hne : ¬ (s.1 == n) = true := by
      simp only [beq_iff_eq]
      intro he
      exact h (he ▸ List.mem_map.mpr ⟨s, hs, rfl⟩)
    simp [hne]
  rw [h1]
  simp

theorem parseLines_blank {ls : List (List Char)} {l : List Char}
    {cur : Option String} {acc : Dict Sect}
    (h : classifyLine l = IniLine.blank) :
    parseLines (l :: ls) cur acc = parseLines ls cur acc := by
  simp only [parseLines, h]

theorem parseLines_header_step {ls : List (List Char)} {l : List Char}
    {n : String} {cur : Option String} {acc : Dict Sect}
    (h : classifyLine l = IniLine.header n) :
    parseLines (l :: ls) cur acc = parseLines ls (some n)
      (if dictHas acc n then acc else acc ++ [(n, [])]) := by
  simp only [parseLines, h]

theorem parseLines_option_step {ls : List (List Char)} {l : List Char}
    {k v : String} {sec : String} {acc : Dict Sect}
    (h : classifyLine l = IniLine.option k v) :
    parseLines (l :: ls) (some sec) acc = parseLines ls (some sec)
      (acc.map (fun s => if s.1 == sec then (sec, dictSet s.2 k v) else s)) := by
  simp only [parseLines, h]

theorem parseLines_optionLines :
    ∀ {entries : Sect} {ls : List (List Char)} {n : String} {acc0 : Dict Sect}
      {sec : Sect}, (∀ e ∈ entries, WfKey e.1 ∧ WfVal e.2) →
      n ∉ dictKeys acc0 →
      parseLines
          ((entries.map fun e => e.1.data ++ ' ' :: '=' :: ' ' :: e.2.data) ++ ls)
          (some n) (acc0 ++ [(n, sec)]) =
        parseLines ls (some n)
          (acc0 ++ [(n, List.foldl (fun a e => dictSet a e.1 e.2) sec entries)])
  | [], ls, n, acc0, sec, _, _ => by simp
  | e :: es, ls, n, acc0, sec, hwf, hn => by
    rw [List.map_cons, List.cons_append,
      parseLines_option_step (classifyLine_option
        (hwf e (List.mem_cons_self e es)).1 (hwf e (List.mem_cons_self e es)).2),
      map_update_append hn]
    rw [parseLines_optionLines
      (fun x hx => hwf x (List.mem_cons.mpr (Or.inr hx))) hn]
    rw [List.foldl_cons]

theorem parseLines_sectionLines {n : String} {entries : Sect}
    {ls : List (List Char)} {cur : Option String} {acc : Dict Sect}
    (hn : WfName n) (hwf : ∀ e ∈ entries, WfKey e.1 ∧ WfVal e.2)
    (hnd : (dictKeys entries).Nodup) (hfresh : n ∉ dictKeys acc) :
    parseLines (sectionLines n entries ++ ls) cur acc =
      parseLines ls (some n) (acc ++ [(n, entries)]) := by
  have hhas : ¬ dictHas acc n = true := fun hh => hfresh (dictHas_iff.mp hh)
  rw [show sectionLines n entries ++ ls =
    ('[' :: n.data ++ [']']) ::
      ((entries.map fun e => e.1.data ++ ' ' :: '=' :: ' ' :: e.2.data) ++
        ([] :: ls)) from by unfold sectionLines; simp]
  rw [parseLines_header_step (classifyLine_header hn), if_neg hhas]
  rw [parseLines_optionLines hwf hfresh]
  rw [foldl_dictSet_fresh (s := []) hnd (fun e _ => rfl)]
  rw [parseLines_blank classifyLine_blank_nil]
  rfl

theorem parseLines_sections :
    ∀ {ss : Dict Sect} {ls : List (List Char)} {cur : Option String}
      {acc : Dict Sect},
      (∀ s ∈ ss, WfName s.1 ∧ (dictKeys s.2).Nodup ∧
        ∀ e ∈ s.2, WfKey e.1 ∧ WfVal e.2) →
      (dictKeys ss).Nodup → (∀ m ∈ dictKeys ss, m ∉ dictKeys acc) →
      ∃ cur2, parseLines ((ss.map (fun s => sectionLines s.1 s.2)).join ++ ls)
          cur acc = parseLines ls cur2 (acc ++ ss)
  | [], ls, cur, acc, _, _, _ => ⟨cur, by simp⟩
  | s :: ss, ls, cur, acc, hwf, hnd, hfresh => by
    rw [show dictKeys (s :: ss) = s.1 :: dictKeys ss from rfl] at hnd
    obtain ⟨hs1, hnd2⟩ := List.nodup_cons.mp hnd
    obtain ⟨h1, h2, h3⟩ := hwf s (List.mem_cons_self s ss)
    obtain ⟨cur2, hrec⟩ := @parseLines_sections ss ls (some s.1)
      (acc ++ [(s.1, s.2)])
      (fun x hx => hwf x (List.mem_cons.mpr (Or.inr hx))) hnd2
      (fun m hm => by
        rw [show dictKeys (acc ++ [(s.1, s.2)]) =
          dictKeys acc ++ [s.1] from by unfold dictKeys; simp]
        intro hmem
        rcases List.mem_append.mp hmem with hmem | hmem
        · exact hfresh m (List.mem_cons.mpr (Or.inr hm)) hmem
        · exact hs1 (List.mem_singleton.mp hmem ▸ hm))
    refine ⟨cur2, ?_⟩
    rw [show ((s :: ss).map (fun s => sectionLines s.1 s.2)).join ++ ls =
      sectionLines s.1 s.2 ++
        ((ss.map (fun s => sectionLines s.1 s.2)).join ++ ls) from by simp]
    rw [parseLines_sectionLines h1 h3 h2
      (hfresh s.1 (List.mem_cons_self s.1 (dictKeys ss)))]
    rw [hrec]
    simp

theorem configLines_no_nl {c : Config} (h : WfConfig c) :
    ∀ l ∈ configLines c, '\n' ∉ l := by
  intro l hl
  unfold configLines at hl
  rw [List.mem_join] at hl
  obtain ⟨lines, hlines, hline⟩ := hl
  obtain ⟨s, hs, hseq⟩ := List.mem_map.mp hlines
  obtain ⟨hname, _, hentries⟩ := h.2 s hs
  subst hseq
  unfold sectionLines at hline
  rcases List.mem_cons.mp hline with hline | hline
  · subst hline
    intro hm
    simp only [List.cons_append, List.mem_cons, List.mem_append,
      List.mem_singleton] at hm
    rcases hm with hm | hm | hm
    · exact absurd hm (by decide)
    · exact hname.2.1 hm
    · exact absurd hm (by decide)
  · rcases List.mem_append.mp hline with hline | hline
    · obtain ⟨e, he, heq⟩ := List.mem_map.mp hline
      obtain ⟨hk, hv⟩ := hentries e he
      subst heq
      intro hm
      simp only [List.mem_append, List.mem_cons] at hm
      rcases hm with hm | hm | hm | hm | hm
      · exact hk.2.2.1 hm
      · exact absurd hm (by decide)
      · exact absurd hm (by decide)
      · exact absurd hm (by decide)
      · exact hv.2 hm
    · rw [List.mem_singleton.mp hline]
      simp

theorem parse_serialize {c : Config} (h : WfConfig c) :
    parseConfig (serializeConfig c) = some c := by
  unfold parseConfig serializeConfig
  rw [splitLines_joinLines (configLines_no_nl h)]
  obtain ⟨cur2, hrec⟩ := @parseLines_sections c.sections [[]] none []
    (fun s hs => h.2 s hs) h.1 (fun m _ hm => List.not_mem_nil m hm)
  rw [show configLines c =
    (c.sections.map (fun s => sectionLines s.1 s.2)).join from rfl]
  rw [hrec]
  rw [parseLines_blank classifyLine_blank_nil]
  cases c
  rfl

theorem mem_dictSet {α : Type} {l : Dict α} {k : String} {v : α}
    {e : String × α} (h : e ∈ dictSet l k v) : e = (k, v) ∨ e ∈ l := by
  unfold dictSet at h
  by_cases hh : dictHas l k = true
  · rw [if_pos hh] at h
    obtain ⟨x, hx, hxe⟩ := List.mem_map.mp h
    by_cases hxk : (x.1 == k) = true
    · rw [if_pos hxk] at hxe
      exact Or.inl hxe.symm
    · rw [if_neg hxk] at hxe
      exact Or.inr (hxe ▸ hx)
  · rw [if_neg hh] at h
    rcases List.mem_append.mp h with h | h
    · exact Or.inr h
    · exact Or.inl (List.mem_singleton.mp h)

theorem head_wf {c : Config} (h : WfConfig c) :
    (dictKeys c.head).Nodup ∧ ∀ e ∈ c.head, WfKey e.1 ∧ WfVal e.2 := by
  unfold Config.head Config.getSection
  cases hg : dictGet c.sections "HEAD" with
  | none => simp [dictKeys]
  | some sec =>
    have hmem : ("HEAD", sec) ∈ c.sections := dictGet_mem hg
    have hwf := h.2 _ hmem
    exact ⟨hwf.2.1, hwf.2.2⟩

theorem wfConfig_writeConfigVal {c : Config} (h : WfConfig c) :
    WfConfig (writeConfigVal c) := by
  obtain ⟨hh1, hh2⟩ := head_wf h
  refine ⟨dictKeys_dictSet_nodup h.1, ?_⟩
  intro s hs2
  rcases mem_dictSet hs2 with he | he
  · rw [he]
    refine ⟨show WfName "HEAD" by decide, ?_, ?_⟩
    · exact ((dictKeys_perm (sortEntries_perm c.head)).nodup_iff).mpr hh1
    · intro e he2
      exact hh2 e ((List.mem_insertionSort entryLe).mp he2)
  · exact h.2 s he

/-- C6 (corrected): the manifest codec round-trips on canonical files. For
every well-formed in-memory manifest `c`, the bytes `WriteConfig` saves for
`c` load back (via `LoadConfig`) to exactly the in-memory value `WriteConfig`
left behind (`c` with its `HEAD` sorted), and re-saving that loaded value
yields byte-identical output. Byte-identity of load-then-save therefore holds
for every file `WriteConfig` itself produced; it does not hold for every
well-formed manifest file (see the counterexample: a parseable file with
unsorted `HEAD` keys is re-saved sorted). -/
theorem manifest_roundtrip (c : Config) (h : WfConfig c) :
    parseConfig (writeConfigText c) = some (writeConfigVal c) ∧
      writeConfigText (writeConfigVal c) = writeConfigText c := by
  constructor
  · unfold writeConfigText
    exact parse_serialize (wfConfig_writeConfigVal h)
  · unfold writeConfigText
    rw [writeConfigVal_idem]

theorem manifest_roundtrip_witness :
    WfConfig cfgUnsorted ∧
      (parseConfig (writeConfigText cfgUnsorted) =
          some (writeConfigVal cfgUnsorted) ∧
        writeConfigText (writeConfigVal cfgUnsorted) =
          writeConfigText cfgUnsorted) :=
  ⟨by decide, manifest_roundtrip cfgUnsorted (by decide)⟩

/-- C6 counterexample: a well-formed manifest file whose load-then-save is
not byte-identical. `serializeConfig cfgUnsorted` is a perfectly well-formed
manifest file (its `HEAD` lists `b` before `a`); `LoadConfig` parses it back
to exactly `cfgUnsorted`, but saving with `WriteConfig` sorts `HEAD` and so
produces different bytes. -/
theorem manifest_roundtrip_not_identical :
    WfConfig cfgUnsorted ∧
      parseConfig (serializeConfig cfgUnsorted) = some cfgUnsorted ∧
      writeConfigText cfgUnsorted ≠ serializeConfig cfgUnsorted := by
  decide
